import Mathlib

/-!
# bump-version: a shallow embedding of `src/bump-version.go`

The program is one straight-line `main`.  The embedding follows it statement by
statement: the flag loop, the manifest lookups, the version parser, the bump
`switch`, the textual manifest patch, the release steps and the clipboard text.

Conventions of the embedding

* A Go `string` or `[]byte` is a `Str`, a list of characters.  Every test the
  program makes on the contents of a string (the three flags, `.`, the decimal
  digits and signs, `"`, `:`, the regexp white space, `@`, `%`) is a test
  against ASCII, where characters and bytes coincide; all other elements are
  only copied or compared for equality.
* Go's `int` is the 64-bit two's complement integer: values are `Int`s and
  `major++` is `wrapInt (major + 1)`.
* The world outside the process (file system, JSON decoder of the standard
  library, child processes) is an explicit `Env`; a run of `main` is the list
  of effects it performs, in order, together with the exit code.
-/

namespace BumpVersion

/-- Go strings and byte slices. -/
abbrev Str := List Char

instance : Coe String Str := ⟨String.toList⟩

/-- Equality of results is decidable, so that runs can be evaluated and compared. -/
instance instDecidableEqExcept {ε α : Type} [DecidableEq ε] [DecidableEq α] :
    DecidableEq (Except ε α)
  | .ok a, .ok b => if h : a = b then isTrue (by rw [h]) else isFalse (fun h' => h (by cases h'; rfl))
  | .error a, .error b =>
    if h : a = b then isTrue (by rw [h]) else isFalse (fun h' => h (by cases h'; rfl))
  | .ok _, .error _ => isFalse (fun h => by cases h)
  | .error _, .ok _ => isFalse (fun h => by cases h)

/-! ## Machine integers -/

/-- Width of Go's `int` (`strconv.IntSize`) on the 64-bit targets. -/
def intSize : Nat := 64

/-- Largest `int`, `1<<63 - 1`. -/
def maxInt : Int := 2 ^ (intSize - 1) - 1

/-- Smallest `int`, `-1<<63`. -/
def minInt : Int := -(2 ^ (intSize - 1))

/-- Two's complement wrap-around of an integer result to the range of `int`. -/
def wrapInt (n : Int) : Int := (n + 2 ^ (intSize - 1)) % 2 ^ intSize - 2 ^ (intSize - 1)

/-! ## `strconv.Atoi` -/

/-- The two error values of package `strconv`: `ErrSyntax` and `ErrRange`. -/
inductive ErrKind
  | invalidSyntax
  | outOfRange
  deriving DecidableEq, Repr

/-- Text of `ErrSyntax.Error()` and `ErrRange.Error()`. -/
def ErrKind.Error : ErrKind → Str
  | .invalidSyntax => "invalid syntax"
  | .outOfRange => "value out of range"

/-- Go's `strconv.NumError`. -/
structure NumError where
  Func : Str
  Num : Str
  Err : ErrKind
  deriving DecidableEq, Repr

/-- The method `(*NumError).Error`: `"strconv." + Func + ": parsing " + Quote(Num) + ": " + Err`.
`Quote` is `strconv.Quote`, taken from the environment. -/
def NumError.Error (Quote : Str → Str) (e : NumError) : Str :=
  ("strconv." : String).toList ++ e.Func ++ (": parsing " : String).toList ++ Quote e.Num
    ++ (": " : String).toList ++ e.Err.Error

/-- Value of a decimal digit, `c - '0'`. -/
def digitVal (c : Char) : Nat := c.toNat - 48

/-- The digit loop of `strconv.ParseUint(s, 10, 64)`: a character that is not a
decimal digit is a syntax error, a value above `1<<64 - 1` a range error, whichever
comes first from the left. -/
def parseUintLoop : Str → Nat → Except ErrKind Nat
  | [], n => .ok n
  | c :: cs, n =>
    if c.isDigit then
      if n * 10 + digitVal c > 2 ^ 64 - 1 then .error .outOfRange
      else parseUintLoop cs (n * 10 + digitVal c)
    else .error .invalidSyntax

/-- Go's `strconv.Atoi` on a 64-bit target (fast path and `ParseInt(s, 10, 0)` path
give the same results): an optional single sign, then at least one decimal digit and
nothing else, the value within `[-1<<63, 1<<63 - 1]`. -/
def Atoi (s : Str) : Except NumError Int :=
  match s with
  | [] => .error ⟨"Atoi", s, .invalidSyntax⟩
  | c :: rest =>
    let neg : Bool := c = '-'
    let digits : Str := if c = '-' ∨ c = '+' then rest else s
    if digits = [] then .error ⟨"Atoi", s, .invalidSyntax⟩
    else
      match parseUintLoop digits 0 with
      | .error .invalidSyntax => .error ⟨"Atoi", s, .invalidSyntax⟩
      | .error .outOfRange => .error ⟨"Atoi", s, .outOfRange⟩
      | .ok un =>
        if neg = false ∧ un ≥ 2 ^ (intSize - 1) then .error ⟨"Atoi", s, .outOfRange⟩
        else if neg = true ∧ un > 2 ^ (intSize - 1) then .error ⟨"Atoi", s, .outOfRange⟩
        else .ok (if neg then -(un : Int) else (un : Int))

/-! ## `strings.Split`, `strings.TrimPrefix` -/

/-- Go's `strings.Split(s, sep)` for a one-character separator: the pieces between
consecutive separators, one more piece than there are separators. -/
def Split (s : Str) (sep : Char) : List Str :=
  match s with
  | [] => [[]]
  | c :: cs =>
    if c = sep then [] :: Split cs sep
    else
      match Split cs sep with
      | [] => [[c]]
      | p :: ps => (c :: p) :: ps

/-- Go's `strings.TrimPrefix(s, prefix)`: `s` without the leading `prefix` when it
has it, `s` itself otherwise. -/
def TrimPrefix (s pre : Str) : Str :=
  if pre.isPrefixOf s then s.drop pre.length else s

/-! ## `fmt.Sprintf` -/

/-- Decimal digits of an unsigned value, most significant first (the digit loop of
`fmt`'s integer formatting, which fills its buffer from the right). -/
def fmtUintAux : Nat → Nat → Str → Str
  | 0, _, acc => acc
  | fuel + 1, u, acc =>
    if u < 10 then Char.ofNat (48 + u) :: acc
    else fmtUintAux fuel (u / 10) (Char.ofNat (48 + u % 10) :: acc)

/-- Decimal rendering of an unsigned value. -/
def fmtUint (u : Nat) : Str := fmtUintAux (u + 1) u []

/-- The verb `%d` on an `int`: a minus sign for a negative value, then the digits
of the magnitude. -/
def fmtInt (n : Int) : Str :=
  if n < 0 then '-' :: fmtUint n.natAbs else fmtUint n.natAbs

/-- Operands passed to `Sprintf`.  An `error` operand is passed as the string its
`Error` method returns, which is what `%v` prints for it. -/
inductive Arg
  | str (s : Str)
  | int (n : Int)
  deriving DecidableEq, Repr

/-- Name of the operand's Go type, as `reflect.TypeOf(arg).String()` gives it. -/
def Arg.typeName : Arg → Str
  | .str _ => "string"
  | .int _ => "int"

/-- The operand printed with `%v`. -/
def Arg.value : Arg → Str
  | .str s => s
  | .int n => fmtInt n

/-- One directive `%verb` applied to one operand. -/
def fmtVerb (verb : Char) (a : Arg) : Str :=
  match verb, a with
  | 'v', a => a.value
  | 's', .str s => s
  | 'd', .int n => fmtInt n
  | verb, a =>
    ("%!" : String).toList ++ [verb] ++ ("(" : String).toList ++ a.typeName
      ++ ("=" : String).toList ++ a.value ++ (")" : String).toList

/-- The operands left over after the format is exhausted, as `fmt` lists them:
`type=value` separated by `", "`. -/
def fmtExtra : List Arg → Str
  | [] => []
  | [a] => a.typeName ++ ("=" : String).toList ++ a.value
  | a :: as => a.typeName ++ ("=" : String).toList ++ a.value ++ (", " : String).toList ++ fmtExtra as

/-- Go's `fmt.Sprintf` for formats whose directives are a verb right after the
percent sign (no flags, width or argument index), which is all `main` uses.
Literal text is copied; `%%` is a percent sign; a directive consumes the next
operand; a directive without operand prints `%!verb(MISSING)`; a format ending in
`%` prints `%!(NOVERB)`; operands left over are reported as
`%!(EXTRA type=value, ...)`. -/
def Sprintf : Str → List Arg → Str
  | [], [] => []
  | [], a :: as => ("%!(EXTRA " : String).toList ++ fmtExtra (a :: as) ++ (")" : String).toList
  | ['%'], args => ("%!(NOVERB)" : String).toList ++ Sprintf [] args
  | '%' :: '%' :: rest, args => '%' :: Sprintf rest args
  | '%' :: verb :: rest, [] =>
    ("%!" : String).toList ++ [verb] ++ ("(MISSING)" : String).toList ++ Sprintf rest []
  | '%' :: verb :: rest, a :: as => fmtVerb verb a ++ Sprintf rest as
  | c :: rest, args => c :: Sprintf rest args

/-! ## The flag loop (lines 26-43) -/

/-- The three variables the flag loop sets. -/
structure Flags where
  bumpType : Str
  dryRun : Bool
  commitMsg : Str
  deriving DecidableEq, Repr

/-- Values of `bumpType`, `dryRun` and `commitMsg` before the loop. -/
def initFlags : Flags := ⟨"patch", false, ""⟩

/-- The loop `for i := 1; i < len(os.Args); i++` over the arguments after the program
name: `--major` and `--minor` set `bumpType`, `--dryrun` sets `dryRun`, any other
token is stored in `commitMsg` and ends the loop (`break`). -/
def parseFlags : List Str → Flags → Flags
  | [], f => f
  | arg :: rest, f =>
    if arg = "--major" then parseFlags rest { f with bumpType := "major" }
    else if arg = "--minor" then parseFlags rest { f with bumpType := "minor" }
    else if arg = "--dryrun" then parseFlags rest { f with dryRun := true }
    else { f with commitMsg := arg }

/-! ## The decoded manifest (lines 59-80) -/

/-- What `json.Unmarshal` stores in an `interface{}`: `nil`, `bool`, `float64`
(kept as the number's text, `main` never looks at one), `string`, `[]interface{}`
and `map[string]interface{}` (as an association list). -/
inductive JValue
  | null
  | bool (b : Bool)
  | number (text : Str)
  | string (s : Str)
  | array (items : List JValue)
  | object (fields : List (Str × JValue))

/-- The map index `m[key]`: the value stored under `key`, if any. -/
def index (m : List (Str × JValue)) (key : Str) : Option JValue := List.lookup key m

/-- The type assertion `x.(string)` on the result of a map index. -/
def asString : Option JValue → Option Str
  | some (.string s) => some s
  | _ => none

/-- The type assertion `x.(map[string]interface{})` on the result of a map index. -/
def asObject : Option JValue → Option (List (Str × JValue))
  | some (.object fields) => some fields
  | _ => none

/-- The variable `hasPackageScript`: `pkg["scripts"]` is an object with a key `package`. -/
def hasPackageScript (pkg : List (Str × JValue)) : Bool :=
  match asObject (index pkg "scripts") with
  | some scripts => (index scripts "package").isSome
  | none => false

/-! ## The version calculator (lines 82-119) -/

/-- Lines 82-103: split on `.`, demand three parts, convert each with `Atoi`.  A
failure is the text the program prints on the error stream before `os.Exit(1)`. -/
def parseVersion (Quote : Str → Str) (version : Str) : Except Str (Int × Int × Int) :=
  match Split version '.' with
  | [p0, p1, p2] =>
    match Atoi p0 with
    | .error e => .error (Sprintf "Error parsing major version: %v\n" [.str (e.Error Quote)])
    | .ok major =>
      match Atoi p1 with
      | .error e => .error (Sprintf "Error parsing minor version: %v\n" [.str (e.Error Quote)])
      | .ok minor =>
        match Atoi p2 with
        | .error e => .error (Sprintf "Error parsing patch version: %v\n" [.str (e.Error Quote)])
        | .ok patch => .ok (major, minor, patch)
  | _ => .error (Sprintf "Invalid version format: %s (expected x.y.z)\n" [.str version])

/-- Lines 105-116: the `switch bumpType`; `++` on an `int` wraps around. -/
def bump (bumpType : Str) (v : Int × Int × Int) : Int × Int × Int :=
  if bumpType = "major" then (wrapInt (v.1 + 1), 0, 0)
  else if bumpType = "minor" then (v.1, wrapInt (v.2.1 + 1), 0)
  else if bumpType = "patch" then (v.1, v.2.1, wrapInt (v.2.2 + 1))
  else v

/-- Line 119: `fmt.Sprintf("%d.%d.%d", major, minor, patch)`. -/
def formatVersion (v : Int × Int × Int) : Str :=
  Sprintf "%d.%d.%d" [.int v.1, .int v.2.1, .int v.2.2]

/-- The variable `newVersion` as a function of the manifest's version string and the
bump type (lines 82-119), or the error text printed instead. -/
def newVersion (Quote : Str → Str) (bumpType version : Str) : Except Str Str :=
  match parseVersion Quote version with
  | .error msg => .error msg
  | .ok v => .ok (formatVersion (bump bumpType v))

/-! ## The manifest patcher (lines 128-130) -/

/-- The class `\s` of Go's regexp syntax: `[\t\n\f\r ]`. -/
def isSpace (c : Char) : Bool :=
  c = '\t' ∨ c = '\n' ∨ c = '\x0c' ∨ c = '\r' ∨ c = ' '

/-- Match of a literal at the start of the input: the input after it. -/
def stripPrefix : Str → Str → Option Str
  | [], s => some s
  | _ :: _, [] => none
  | p :: ps, c :: cs => if p = c then stripPrefix ps cs else none

/-- The literal `"version"` the pattern starts with. -/
def versionKey : Str := "\"version\""

/-- A match of `versionPattern`: the text of capture group 1 and the input that
follows the match. -/
structure Match where
  group1 : Str
  rest : Str
  deriving DecidableEq, Repr

/-- A match of `("version"\s*:\s*)"` + `QuoteMeta(oldVersion)` + `"` starting at the head
of `s`.  `QuoteMeta` makes `oldVersion` a literal.  Each `\s*` is followed by a
character that is not white space, so it takes all the white space there is and no
shorter choice can match: there is at most one match at a position. -/
def matchAt (oldVersion s : Str) : Option Match :=
  match stripPrefix versionKey s with
  | none => none
  | some s1 =>
    match s1.dropWhile isSpace with
    | ':' :: s3 =>
      match stripPrefix ('"' :: oldVersion ++ ['"']) (s3.dropWhile isSpace) with
      | some rest =>
        some ⟨versionKey ++ s1.takeWhile isSpace ++ ':' :: s3.takeWhile isSpace, rest⟩
      | none => none
    | _ => none

/-- Expansion of the replacement template `${1}"` + newVersion + `"` for a match:
`${1}` is the text of group 1 and the rest of the template is literal text.  (`$` is
the only character `Expand` interprets, and a version printed by `%d.%d.%d` has
none.) -/
def expandTemplate (newVersion : Str) (m : Match) : Str :=
  m.group1 ++ '"' :: newVersion ++ ['"']

/-- The loop of `Regexp.ReplaceAll`: the leftmost match is replaced by the expanded
template and the search goes on after its end; input that no match covers is copied.
The pattern has no empty match, so each round consumes input. -/
def replaceAllAux (oldVersion newVersion : Str) : Nat → Str → Str
  | 0, s => s
  | _ + 1, [] => []
  | fuel + 1, c :: cs =>
    match matchAt oldVersion (c :: cs) with
    | some m => expandTemplate newVersion m ++ replaceAllAux oldVersion newVersion fuel m.rest
    | none => c :: replaceAllAux oldVersion newVersion fuel cs

/-- The variable `updatedData`: `versionPattern.ReplaceAll(data, ...)`. -/
def updatedData (oldVersion newVersion data : Str) : Str :=
  replaceAllAux oldVersion newVersion data.length data

/-! ## Effects, environment and runs -/

/-- What the process does to the outside, one constructor per kind of call. -/
inductive Effect
  | stdout (text : Str)
  | stderr (text : Str)
  | readFile (name : Str)
  | writeFile (name : Str) (data : Str) (perm : Nat)
  | command (argv : List Str)
  deriving DecidableEq, Repr

/-- Result of running a child process to completion: the `error` of `Run` or
`CombinedOutput` (`none` for `nil`) and the captured output. -/
structure CmdResult where
  err : Option Str
  output : Str

/-- The outside world as `main` sees it.  Errors are given by their `Error()` text. -/
structure Env where
  /-- Go `os.ReadFile`. -/
  ReadFile : Str → Except Str Str
  /-- Go `json.Unmarshal` into a `map[string]interface{}`. -/
  Unmarshal : Str → Except Str (List (Str × JValue))
  /-- Go `os.WriteFile`; `none` is a `nil` error. -/
  WriteFile : Str → Str → Nat → Option Str
  /-- Running `exec.Command(argv...)`. -/
  Command : List Str → CmdResult
  /-- Go `strconv.Quote`. -/
  Quote : Str → Str

/-- A finished run: the effects in order and the exit code. -/
structure Run where
  trace : List Effect
  exit : Nat
  deriving DecidableEq, Repr

/-- Effects `pre`, then the run `r`. -/
def Run.after (pre : List Effect) (r : Run) : Run := ⟨pre ++ r.trace, r.exit⟩

/-- Go `fmt.Println(s)`. -/
def println (s : Str) : Effect := .stdout (s ++ ['\n'])

/-- Go `fmt.Printf(format, args...)`. -/
def printf (format : Str) (args : List Arg) : Effect := .stdout (Sprintf format args)

/-- Go `fmt.Fprintf(os.Stderr, format, args...)`. -/
def eprintf (format : Str) (args : List Arg) : Effect := .stderr (Sprintf format args)

/-- The constant `filePermissions = 0644`. -/
def filePermissions : Nat := 0o644

/-- The variable `packageFile`. -/
def packageFile : Str := "package.json"

/-- The variable `clipboardMask`. -/
def clipboardMask : Str := "pnpm add https://github.com/rogerpence"

/-- The variable `packageName` (line 222). -/
def packageName (name : Str) : Str := TrimPrefix name "@"

/-- The variable `clipboardText` (line 223). -/
def clipboardText (name newVersion : Str) : Str :=
  Sprintf clipboardMask [.str (packageName name), .str newVersion]

/-- The variable `tagName` (line 160). -/
def tagName (newVersion : Str) : Str := Sprintf "v%s" [.str newVersion]

/-! ## `main` -/

/-- Lines 17-24: the usage text, printed when no argument is given. -/
def usage (prog : Str) : List Effect :=
  [ eprintf "Usage: %s [--major|--minor] [--dryrun] <commit-message>\n" [.str prog],
    eprintf "  --major:   Bump major version (x.0.0)\n" [],
    eprintf "  --minor:   Bump minor version (x.y.0)\n" [],
    eprintf "  --dryrun:  Show what would happen without making changes\n" [],
    eprintf "  (default)  Bump patch version (x.y.z)\n" [] ]

/-- Lines 219-235: the clipboard text is built, then copied with `pwsh` (a failure
is only a warning) or, in a dry run, printed.  The program ends here with code 0. -/
def clipboardStep (env : Env) (dryRun : Bool) (name newVersion : Str) : Run :=
  if dryRun = false then
    let argv : List Str :=
      ["pwsh", "-command", Sprintf "Set-Clipboard -Value '%s'" [.str (clipboardText name newVersion)]]
    match (env.Command argv).err with
    | some e => ⟨[.command argv, eprintf "Warning: Could not copy to clipboard: %v\n" [.str e]], 0⟩
    | none =>
      ⟨[.command argv, printf "\n📋 Copied to clipboard: %s\n" [.str (clipboardText name newVersion)]], 0⟩
  else ⟨[printf "\nWould copy to clipboard: %s\n" [.str (clipboardText name newVersion)]], 0⟩

/-- Lines 160-217: the five git commands in order, each fatal when it fails, or, in
a dry run, the text of the commands; then `next`. -/
def gitStep (env : Env) (dryRun : Bool) (commitMsg newVersion : Str) (next : Run) : Run :=
  if dryRun = false then
    Run.after [.command ["git", "add", "-A"]] <|
    match (env.Command ["git", "add", "-A"]).err with
    | some e => ⟨[eprintf "Error running git add: %v\n" [.str e]], 1⟩
    | none =>
    Run.after [.command ["git", "commit", "-m", commitMsg]] <|
    match (env.Command ["git", "commit", "-m", commitMsg]).err with
    | some e =>
      ⟨[eprintf "Error running git commit: %v\n%s\n"
          [.str e, .str (env.Command ["git", "commit", "-m", commitMsg]).output]], 1⟩
    | none =>
    Run.after [println "✓ Committed changes", .command ["git", "tag", tagName newVersion]] <|
    match (env.Command ["git", "tag", tagName newVersion]).err with
    | some e =>
      ⟨[eprintf "Error creating git tag: %v\n%s\n"
          [.str e, .str (env.Command ["git", "tag", tagName newVersion]).output]], 1⟩
    | none =>
    Run.after [printf "✓ Created git tag %s\n" [.str (tagName newVersion)],
               .command ["git", "push"]] <|
    match (env.Command ["git", "push"]).err with
    | some e =>
      ⟨[eprintf "Error running git push: %v\n%s\n"
          [.str e, .str (env.Command ["git", "push"]).output]], 1⟩
    | none =>
    Run.after [println "✓ Pushed commits to remote", .command ["git", "push", "--tags"]] <|
    match (env.Command ["git", "push", "--tags"]).err with
    | some e =>
      ⟨[eprintf "Error pushing tags: %v\n%s\n"
          [.str e, .str (env.Command ["git", "push", "--tags"]).output]], 1⟩
    | none =>
    Run.after [println "✓ Pushed tags to remote",
               printf "\n✅ Successfully bumped to version %s and pushed to remote!\n"
                 [.str newVersion]] next
  else
    Run.after [println "\nWould execute:",
               println "  git add -A",
               printf "  git commit -m \"%s\"\n" [.str commitMsg],
               printf "  git tag %s\n" [.str (tagName newVersion)],
               println "  git push",
               println "  git push --tags",
               printf "\n✅ Dry run complete - version would be %s\n" [.str newVersion]] next

/-- Lines 143-158: `pnpm run package` when the manifest has a `package` script (a
failure is fatal), or, in a dry run, the text of the command; then `next`. -/
def packageStep (env : Env) (dryRun hasScript : Bool) (next : Run) : Run :=
  if hasScript = true then
    if dryRun = false then
      Run.after [println "\n📦 Running 'pnpm run package'...", .command ["pnpm", "run", "package"]] <|
      match (env.Command ["pnpm", "run", "package"]).err with
      | some e => ⟨[eprintf "Error running pnpm run package: %v\n" [.str e]], 1⟩
      | none => Run.after [println "✓ Package built successfully"] next
    else Run.after [println "Would run: pnpm run package"] next
  else next

/-- Lines 132-141: the patched manifest is written (a failure is fatal) or, in a dry
run, the intent is printed; then `next`. -/
def writeStep (env : Env) (dryRun : Bool) (updated newVersion : Str) (next : Run) : Run :=
  if dryRun = false then
    Run.after [.writeFile packageFile updated filePermissions] <|
    match env.WriteFile packageFile updated filePermissions with
    | some e => ⟨[eprintf "Error writing package.json: %v\n" [.str e]], 1⟩
    | none => Run.after [printf "✓ Updated package.json to version %s\n" [.str newVersion]] next
  else Run.after [printf "Would update package.json to version %s\n" [.str newVersion]] next

/-- Lines 122-235: everything after the new version is known. -/
def release (env : Env) (f : Flags) (data : Str) (pkg : List (Str × JValue))
    (oldVersion new : Str) : Run :=
  Run.after
    ([printf "Bumping version: %s -> %s\n" [.str oldVersion, .str new]]
      ++ (if f.dryRun = true then [println "\n🔍 DRY RUN MODE - No changes will be made\n"] else [])) <|
  writeStep env f.dryRun (updatedData oldVersion new data) new <|
  packageStep env f.dryRun (hasPackageScript pkg) <|
  gitStep env f.dryRun f.commitMsg new <|
  clipboardStep env f.dryRun ((asString (index pkg "name")).getD []) new

/-- Lines 50-120: the manifest is read and decoded, the version field looked up and
the new version computed; each failure prints one line and exits with code 1. -/
def afterFlags (env : Env) (f : Flags) : Run :=
  Run.after [.readFile packageFile] <|
  match env.ReadFile packageFile with
  | .error e => ⟨[eprintf "Error reading package.json: %v\n" [.str e]], 1⟩
  | .ok data =>
  match env.Unmarshal data with
  | .error e => ⟨[eprintf "Error parsing package.json: %v\n" [.str e]], 1⟩
  | .ok pkg =>
  match asString (index pkg "version") with
  | none => ⟨[eprintf "Error: version field not found or not a string\n" []], 1⟩
  | some version =>
  match newVersion env.Quote f.bumpType version with
  | .error msg => ⟨[.stderr msg], 1⟩
  | .ok new => release env f data pkg version new

/-- Lines 16-48: the argument check, the flag loop and the commit-message check.  A
failure is the finished run (what is printed, exit code 1). -/
def parseArgs (prog : Str) (args : List Str) : Except Run Flags :=
  if (prog :: args).length < 2 then .error ⟨usage prog, 1⟩
  else if (parseFlags args initFlags).commitMsg = [] then
    .error ⟨[eprintf "Error: commit message is required\n" []], 1⟩
  else .ok (parseFlags args initFlags)

/-- The program: `os.Args` is `prog :: args`. -/
def main (env : Env) (prog : Str) (args : List Str) : Run :=
  match parseArgs prog args with
  | .error r => r
  | .ok f => afterFlags env f

/-! ## A concrete world for the examples -/

/-- The manifest of the end-to-end examples. -/
def acmeManifest : Str := "\x7b\"name\": \"@acme/tool\", \"version\": \"1.2.3\"\x7d"

/-- What the decoder gives for `acmeManifest`. -/
def acmePkg : List (Str × JValue) :=
  [("name", .string "@acme/tool"), ("version", .string "1.2.3")]

/-- A world whose `package.json` holds `acmeManifest` and in which every write and
command succeeds. -/
def acmeEnv : Env where
  ReadFile := fun name => if name = packageFile then .ok acmeManifest else .error "no such file"
  Unmarshal := fun data => if data = acmeManifest then .ok acmePkg else .error "not decoded"
  WriteFile := fun _ _ _ => none
  Command := fun _ => ⟨none, []⟩
  Quote := fun s => '"' :: s ++ ['"']

/-! ## Specification vocabulary for the argument parser -/

/-- The token is one of the three flags. -/
def isFlag (t : Str) : Bool := t = "--major" ∨ t = "--minor" ∨ t = "--dryrun"

/-- The token selects a bump mode. -/
def isModeFlag (t : Str) : Bool := t = "--major" ∨ t = "--minor"

/-- Bump mode chosen by a list of flags, in the words of the specification: the last
of the tokens `--major` / `--minor` decides, and without one the mode stays `d`. -/
def lastWinsFrom (d : Str) (flags : List Str) : Str :=
  match (flags.filter isModeFlag).getLast? with
  | none => d
  | some t => if t = "--major" then "major" else "minor"

/-- Bump mode chosen by a list of flags, `patch` by default. -/
def lastWins (flags : List Str) : Str := lastWinsFrom "patch" flags

/-- The run that ends with the complaint about the missing commit message. -/
def missingMessage : Run := ⟨[eprintf "Error: commit message is required\n" []], 1⟩

/-! ## Specification vocabulary for runs -/

/-- The effect changes something outside the process: a file write or a child
process (packaging, version control, clipboard utility). -/
def Effect.mutates : Effect → Bool
  | .writeFile _ _ _ => true
  | .command _ => true
  | _ => false

/-- The effect is a print on one of the two streams. -/
def Effect.isPrint : Effect → Bool
  | .stdout _ => true
  | .stderr _ => true
  | _ => false

/-- What a dry run prints after the new version is known, for a manifest with or
without a `package` script. -/
def dryRunOutput (hasScript : Bool) (commitMsg name oldVersion new : Str) : List Effect :=
  [printf "Bumping version: %s -> %s\n" [.str oldVersion, .str new],
   println "\n🔍 DRY RUN MODE - No changes will be made\n",
   printf "Would update package.json to version %s\n" [.str new]]
  ++ (if hasScript = true then [println "Would run: pnpm run package"] else [])
  ++ [println "\nWould execute:",
      println "  git add -A",
      printf "  git commit -m \"%s\"\n" [.str commitMsg],
      printf "  git tag %s\n" [.str (tagName new)],
      println "  git push",
      println "  git push --tags",
      printf "\n✅ Dry run complete - version would be %s\n" [.str new],
      printf "\nWould copy to clipboard: %s\n" [.str (clipboardText name new)]]

/-- The effects of `--dryrun "release"` on the example manifest, in order. -/
def acmeDryRunTrace : List Effect :=
  [.readFile "package.json",
   .stdout "Bumping version: 1.2.3 -> 1.2.4\n",
   .stdout "\n🔍 DRY RUN MODE - No changes will be made\n\n",
   .stdout "Would update package.json to version 1.2.4\n",
   .stdout "\nWould execute:\n",
   .stdout "  git add -A\n",
   .stdout "  git commit -m \"release\"\n",
   .stdout "  git tag v1.2.4\n",
   .stdout "  git push\n",
   .stdout "  git push --tags\n",
   .stdout "\n✅ Dry run complete - version would be 1.2.4\n",
   .stdout
     "\nWould copy to clipboard: pnpm add https://github.com/rogerpence%!(EXTRA string=acme/tool, string=1.2.4)\n"]

/-- A world whose `package.json` holds `data`, decoded as `pkg`, and in which every
write and command succeeds. -/
def worldOf (data : Str) (pkg : List (Str × JValue)) : Env where
  ReadFile := fun name => if name = packageFile then .ok data else .error "no such file"
  Unmarshal := fun text => if text = data then .ok pkg else .error "not decoded"
  WriteFile := fun _ _ _ => none
  Command := fun _ => ⟨none, []⟩
  Quote := fun s => '"' :: s ++ ['"']

/-! ## Specification vocabulary for versions -/

/-- Value of a string of decimal digits, most significant first. -/
def digitsValue (ds : Str) : Nat := ds.foldl (fun acc c => acc * 10 + digitVal c) 0

/-- The string `ds` is the plain decimal numeral of `u`: at least one character, decimal
digits only, no leading zero unless the numeral is `0`, and the value is `u`. -/
def PlainDigits (u : Nat) (ds : Str) : Prop :=
  ds ≠ [] ∧ (∀ c ∈ ds, c.isDigit = true) ∧ (ds.head? = some '0' → ds = ['0']) ∧
    digitsValue ds = u

/-- The string `s` is the plain decimal numeral of the integer `n`: the numeral of its
magnitude, after a minus sign exactly when `n` is negative; nothing else, so no padding
and no plus sign. -/
def PlainDecimal (n : Int) (s : Str) : Prop :=
  ∃ ds, PlainDigits n.natAbs ds ∧ s = if n < 0 then '-' :: ds else ds

/-- The string `p` is an integer as the tool reads one: an optional single sign and then
decimal digits (leading zeros allowed), of value `n` within the range of `int`. -/
def IsInteger (p : Str) (n : Int) : Prop :=
  ∃ ds, ds ≠ [] ∧ (∀ c ∈ ds, c.isDigit = true) ∧ minInt ≤ n ∧ n ≤ maxInt ∧
    ((p = ds ∧ n = digitsValue ds) ∨ (p = '+' :: ds ∧ n = digitsValue ds) ∨
      (p = '-' :: ds ∧ n = -(digitsValue ds : Int)))

/-! ## Specification vocabulary for the manifest patcher -/

/-- The text `g` is a key part of the pattern: the literal `"version"`, white space, a
colon, white space. -/
def IsKeyPart (g : Str) : Prop :=
  ∃ ws1 ws2 : Str, (∀ c ∈ ws1, isSpace c = true) ∧ (∀ c ∈ ws2, isSpace c = true) ∧
    g = versionKey ++ ws1 ++ ':' :: ws2

/-- A match of the pattern starts at the head of `s`: a key part, then the old version
between double quotes. -/
def StartsMatch (oldVersion s : Str) : Prop :=
  ∃ g rest, IsKeyPart g ∧ s = g ++ '"' :: (oldVersion ++ '"' :: rest)

/-- The pattern occurs somewhere in `data`. -/
def Occurs (oldVersion data : Str) : Prop :=
  ∃ before s, data = before ++ s ∧ StartsMatch oldVersion s

/-- The text `out` is `data` with the quoted value of each match replaced, in the words
of the specification: going from left to right, a character at which no match starts
is kept; at a match, everything up to and including the opening quote is kept, the old
version between the quotes becomes the new one, the closing quote is kept, and the
same holds for what follows the match. -/
inductive Patched (oldVersion new : Str) : Str → Str → Prop
  | done : Patched oldVersion new [] []
  | keep (c : Char) (s out : Str) :
      ¬ StartsMatch oldVersion (c :: s) → Patched oldVersion new s out →
      Patched oldVersion new (c :: s) (c :: out)
  | replace (g s out : Str) :
      IsKeyPart g → Patched oldVersion new s out →
      Patched oldVersion new (g ++ '"' :: (oldVersion ++ '"' :: s))
        (g ++ '"' :: (new ++ '"' :: out))

/-- A manifest whose dependency entry carries a nested `version` key with the value of
the top-level one. -/
def nestedManifest : Str :=
  "\x7b\"version\": \"1.2.3\", \"dependencies\": \x7b\"left-pad\": \x7b\"version\": \"1.2.3\"\x7d\x7d\x7d"

/-! # Verification -/

/-! ## The argument parser -/

theorem lastWinsFrom_nil (d : Str) : lastWinsFrom d [] = d := rfl

theorem lastWinsFrom_cons_major (d : Str) (flags : List Str) :
    lastWinsFrom d ("--major".toList :: flags) = lastWinsFrom "major".toList flags := by
  unfold lastWinsFrom
  have h : isModeFlag "--major".toList = true := by decide
  rw [List.filter_cons_of_pos h]
  cases hf : flags.filter isModeFlag with
  | nil => simp
  | cons x xs =>
    obtain ⟨y, hy⟩ : ∃ y, (x :: xs).getLast? = some y :=
      ⟨_, List.getLast?_eq_getLast _ (List.cons_ne_nil _ _)⟩
    rw [List.getLast?_cons_cons, hy]

theorem lastWinsFrom_cons_minor (d : Str) (flags : List Str) :
    lastWinsFrom d ("--minor".toList :: flags) = lastWinsFrom "minor".toList flags := by
  unfold lastWinsFrom
  have h : isModeFlag "--minor".toList = true := by decide
  rw [List.filter_cons_of_pos h]
  cases hf : flags.filter isModeFlag with
  | nil => simp
  | cons x xs =>
    obtain ⟨y, hy⟩ : ∃ y, (x :: xs).getLast? = some y :=
      ⟨_, List.getLast?_eq_getLast _ (List.cons_ne_nil _ _)⟩
    rw [List.getLast?_cons_cons, hy]

theorem lastWinsFrom_cons_dryrun (d : Str) (flags : List Str) :
    lastWinsFrom d ("--dryrun".toList :: flags) = lastWinsFrom d flags := by
  unfold lastWinsFrom
  have h : ¬ (isModeFlag "--dryrun".toList = true) := by decide
  rw [List.filter_cons_of_neg h]

/-- The loop on a list of flags followed by a token that is not a flag. -/
theorem parseFlags_flags_then_msg (flags : List Str) (msg : Str) (rest : List Str) (f : Flags)
    (hflags : ∀ t ∈ flags, isFlag t = true) (hmsg : isFlag msg = false) :
    parseFlags (flags ++ msg :: rest) f =
      ⟨lastWinsFrom f.bumpType flags, f.dryRun || decide ("--dryrun".toList ∈ flags), msg⟩ := by
  induction flags generalizing f with
  | nil =>
    have h1 : msg ≠ "--major".toList := by rintro rfl; exact absurd hmsg (by decide)
    have h2 : msg ≠ "--minor".toList := by rintro rfl; exact absurd hmsg (by decide)
    have h3 : msg ≠ "--dryrun".toList := by rintro rfl; exact absurd hmsg (by decide)
    rw [List.nil_append, parseFlags, if_neg h1, if_neg h2, if_neg h3, lastWinsFrom_nil]
    simp
  | cons t ts ih =>
    have hts : ∀ t ∈ ts, isFlag t = true := fun x hx => hflags x (List.mem_cons_of_mem _ hx)
    have ht : isFlag t = true := hflags t (List.mem_cons_self _ _)
    by_cases h1 : t = "--major".toList
    · subst h1
      rw [List.cons_append, parseFlags, if_pos rfl, ih _ hts, lastWinsFrom_cons_major]
      have : "--dryrun".toList ≠ "--major".toList := by decide
      simp [this]
    · by_cases h2 : t = "--minor".toList
      · subst h2
        rw [List.cons_append, parseFlags, if_neg h1, if_pos rfl, ih _ hts, lastWinsFrom_cons_minor]
        have : "--dryrun".toList ≠ "--minor".toList := by decide
        simp [this]
      · have h3 : t = "--dryrun".toList := by
          simp only [isFlag, Bool.decide_or, Bool.or_eq_true, decide_eq_true_eq] at ht
          rcases ht with h | h | h
          · exact absurd h h1
          · exact absurd h h2
          · exact h
        subst h3
        rw [List.cons_append, parseFlags, if_neg h1, if_neg h2, if_pos rfl, ih _ hts,
          lastWinsFrom_cons_dryrun]
        simp

/-- The loop on a list of flags only. -/
theorem parseFlags_flags_only (flags : List Str) (f : Flags)
    (hflags : ∀ t ∈ flags, isFlag t = true) :
    parseFlags flags f =
      ⟨lastWinsFrom f.bumpType flags, f.dryRun || decide ("--dryrun".toList ∈ flags), f.commitMsg⟩ := by
  induction flags generalizing f with
  | nil => simp [parseFlags, lastWinsFrom_nil]
  | cons t ts ih =>
    have hts : ∀ t ∈ ts, isFlag t = true := fun x hx => hflags x (List.mem_cons_of_mem _ hx)
    have ht : isFlag t = true := hflags t (List.mem_cons_self _ _)
    by_cases h1 : t = "--major".toList
    · subst h1
      rw [parseFlags, if_pos rfl, ih _ hts, lastWinsFrom_cons_major]
      have : "--dryrun".toList ≠ "--major".toList := by decide
      simp [this]
    · by_cases h2 : t = "--minor".toList
      · subst h2
        rw [parseFlags, if_neg h1, if_pos rfl, ih _ hts, lastWinsFrom_cons_minor]
        have : "--dryrun".toList ≠ "--minor".toList := by decide
        simp [this]
      · have h3 : t = "--dryrun".toList := by
          simp only [isFlag, Bool.decide_or, Bool.or_eq_true, decide_eq_true_eq] at ht
          rcases ht with h | h | h
          · exact absurd h h1
          · exact absurd h h2
          · exact h
        subst h3
        rw [parseFlags, if_neg h1, if_neg h2, if_pos rfl, ih _ hts, lastWinsFrom_cons_dryrun]
        simp

/-- Every argument list is its leading flags followed by the rest. -/
theorem args_split (args : List Str) :
    args = args.takeWhile isFlag ++ args.dropWhile isFlag :=
  (List.takeWhile_append_dropWhile isFlag args).symm

theorem takeWhile_all_flags (args : List Str) : ∀ t ∈ args.takeWhile isFlag, isFlag t = true :=
  fun _ ht => List.mem_takeWhile_imp ht

theorem dropWhile_head_not_flag (args : List Str) (msg : Str) (tail : List Str)
    (h : args.dropWhile isFlag = msg :: tail) : isFlag msg = false := by
  have := List.head_dropWhile_not isFlag args (by rw [h]; simp)
  simpa [h] using this

/-- The flag loop in terms of the leading flags and the first token that is not a flag. -/
theorem parseFlags_eq (args : List Str) :
    parseFlags args initFlags =
      ⟨lastWins (args.takeWhile isFlag), decide ("--dryrun".toList ∈ args.takeWhile isFlag),
        (args.dropWhile isFlag).headD []⟩ := by
  cases h : args.dropWhile isFlag with
  | nil =>
    have hp : parseFlags args initFlags = parseFlags (args.takeWhile isFlag) initFlags := by
      conv_lhs => rw [args_split args, h, List.append_nil]
    rw [hp, parseFlags_flags_only _ _ (takeWhile_all_flags args)]
    simp [initFlags, lastWins]
  | cons msg tail =>
    have hp : parseFlags args initFlags
        = parseFlags (args.takeWhile isFlag ++ msg :: tail) initFlags := by
      conv_lhs => rw [args_split args, h]
    rw [hp, parseFlags_flags_then_msg _ _ _ _ (takeWhile_all_flags args)
      (dropWhile_head_not_flag args msg tail h)]
    simp [initFlags, lastWins]

/-- Outcome of the argument parser, case by case. -/
theorem parseArgs_eq (prog : Str) (args : List Str) :
    parseArgs prog args =
      if args = [] then .error ⟨usage prog, 1⟩
      else if (args.dropWhile isFlag).headD [] = [] then .error missingMessage
      else .ok ⟨lastWins (args.takeWhile isFlag),
        decide ("--dryrun".toList ∈ args.takeWhile isFlag), (args.dropWhile isFlag).headD []⟩ := by
  unfold parseArgs
  rw [parseFlags_eq]
  cases args with
  | nil => simp
  | cons a as => simp [missingMessage]

/-- Leading flags and first other token of a list built from flags and such a token. -/
theorem takeWhile_flags_append (flags : List Str) (msg : Str) (rest : List Str)
    (hflags : ∀ t ∈ flags, isFlag t = true) (hmsg : isFlag msg = false) :
    (flags ++ msg :: rest).takeWhile isFlag = flags ∧
      (flags ++ msg :: rest).dropWhile isFlag = msg :: rest := by
  induction flags with
  | nil => simp [List.takeWhile, List.dropWhile, hmsg]
  | cons t ts ih =>
    have hts : ∀ t ∈ ts, isFlag t = true := fun x hx => hflags x (List.mem_cons_of_mem _ hx)
    have ht : isFlag t = true := hflags t (List.mem_cons_self _ _)
    obtain ⟨h1, h2⟩ := ih hts
    simp [List.takeWhile, List.dropWhile, ht, h1, h2]

/-- What a successful parse says about the argument list. -/
theorem parseArgs_ok_inv (prog : Str) (args : List Str) (f : Flags)
    (hok : parseArgs prog args = .ok f) :
    ∃ msg tail, args.dropWhile isFlag = msg :: tail ∧ msg ≠ [] ∧ isFlag msg = false ∧
      f = ⟨lastWins (args.takeWhile isFlag),
        decide ("--dryrun".toList ∈ args.takeWhile isFlag), msg⟩ := by
  rw [parseArgs_eq] at hok
  by_cases hnil : args = []
  · rw [if_pos hnil] at hok; cases hok
  rw [if_neg hnil] at hok
  by_cases hmsg : (args.dropWhile isFlag).headD [] = []
  · rw [if_pos hmsg] at hok; cases hok
  rw [if_neg hmsg] at hok
  injection hok with hf
  cases hd : args.dropWhile isFlag with
  | nil => rw [hd] at hmsg; exact absurd rfl hmsg
  | cons msg tail =>
    have hnf : isFlag msg = false := dropWhile_head_not_flag args msg tail hd
    have hmsg2 : msg ≠ [] := by rw [hd] at hmsg; simpa using hmsg
    rw [hd] at hf
    simp only [List.headD_cons] at hf
    exact ⟨msg, tail, rfl, hmsg2, hnf, hf.symm⟩

/-- C3 (argument parser, flag selection): whenever parsing succeeds, the bump mode is
the one chosen by the last `--major` / `--minor` among the tokens before the first
token that is not a flag (`patch` without one), the dry-run flag is set exactly when
`--dryrun` is among those tokens, the commit message is that first other token, the
flags may be given in any order that keeps the order of the mode flags, and the
tokens after the commit message change neither the parsed values nor the run. -/
theorem flag_selection (prog : Str) (args : List Str) (f : Flags)
    (hok : parseArgs prog args = .ok f) :
    f.bumpType = lastWins (args.takeWhile isFlag) ∧
    (f.dryRun = true ↔ "--dryrun".toList ∈ args.takeWhile isFlag) ∧
    (isFlag f.commitMsg = false ∧
      ∃ tail, args = args.takeWhile isFlag ++ f.commitMsg :: tail) ∧
    (∀ flags rest, flags.Perm (args.takeWhile isFlag) →
      flags.filter isModeFlag = (args.takeWhile isFlag).filter isModeFlag →
      parseArgs prog (flags ++ f.commitMsg :: rest) = .ok f) ∧
    (∀ env rest, main env prog (args.takeWhile isFlag ++ f.commitMsg :: rest)
      = main env prog args) := by
  obtain ⟨msg, tail, hd, hmsg2, hnf, hf⟩ := parseArgs_ok_inv prog args f hok
  subst hf
  dsimp only
  have key : ∀ flags rest, flags.Perm (args.takeWhile isFlag) →
      flags.filter isModeFlag = (args.takeWhile isFlag).filter isModeFlag →
      parseArgs prog (flags ++ msg :: rest) =
        .ok ⟨lastWins (args.takeWhile isFlag),
          decide ("--dryrun".toList ∈ args.takeWhile isFlag), msg⟩ := by
    intro flags rest hperm hfilter
    have hall : ∀ t ∈ flags, isFlag t = true :=
      fun t ht => takeWhile_all_flags args t (hperm.mem_iff.mp ht)
    obtain ⟨h1, h2⟩ := takeWhile_flags_append flags msg rest hall hnf
    rw [parseArgs_eq, h1, h2]
    have hne : flags ++ msg :: rest ≠ [] := by simp
    rw [if_neg hne]
    simp only [List.headD_cons, if_neg hmsg2]
    have hl : lastWins flags = lastWins (args.takeWhile isFlag) := by
      unfold lastWins lastWinsFrom; rw [hfilter]
    have hdry : decide ("--dryrun".toList ∈ flags)
        = decide ("--dryrun".toList ∈ args.takeWhile isFlag) := by
      rw [decide_eq_decide]; exact hperm.mem_iff
    rw [hl, hdry]
  refine ⟨rfl, by simp, ⟨hnf, tail, ?_⟩, key, ?_⟩
  · conv_lhs => rw [args_split args, hd]
  · intro env rest
    have h1 := key (args.takeWhile isFlag) rest (List.Perm.refl _) rfl
    have h2 := key (args.takeWhile isFlag) tail (List.Perm.refl _) rfl
    have h3 : args.takeWhile isFlag ++ msg :: tail = args := by
      conv_rhs => rw [args_split args, hd]
    rw [h3] at h2
    unfold main
    rw [h1, h2]

/-- Witness for `flag_selection`: `--minor --dryrun --major "release" --minor`. -/
theorem flag_selection_witness :
    parseArgs "bump".toList ["--minor".toList, "--dryrun".toList, "--major".toList,
        "release".toList, "--minor".toList]
      = .ok ⟨"major".toList, true, "release".toList⟩ ∧
    ("major".toList = lastWins (["--minor".toList, "--dryrun".toList, "--major".toList,
        "release".toList, "--minor".toList].takeWhile isFlag)) :=
  ⟨by decide,
   (flag_selection "bump".toList ["--minor".toList, "--dryrun".toList, "--major".toList,
      "release".toList, "--minor".toList] ⟨"major".toList, true, "release".toList⟩
      (by decide)).1⟩

/-- C9, counterexample: the argument list `[""]` holds a token that is not a flag, yet
parsing fails: the run prints that a commit message is required and exits with
code 1, and no flags are returned. -/
theorem empty_message_rejected :
    (∃ t ∈ [([] : Str)], isFlag t = false) ∧
    main acmeEnv "bump".toList [[]]
      = ⟨[.stderr "Error: commit message is required\n".toList], 1⟩ ∧
    ¬ ∃ f, parseArgs "bump".toList [[]] = .ok f := by
  refine ⟨⟨[], by simp, by decide⟩, by decide, ?_⟩
  rintro ⟨f, hf⟩
  have h : parseArgs "bump".toList [[]] = .error missingMessage := by decide
  rw [h] at hf
  cases hf

/-- C9 (amended): parsing fails exactly when the first token that is not a flag is
missing (empty list, or flags only) or is the empty string; a failure exits with
code 1 after printing to the error stream only, before any file is read; otherwise
parsing succeeds and the commit message is the first token that is not a flag. -/
theorem parseArgs_outcome (prog : Str) (args : List Str) :
    ((∃ r, parseArgs prog args = .error r) ↔
      ((∀ t ∈ args, isFlag t = true) ∨ (args.dropWhile isFlag).head? = some [])) ∧
    (∀ r, parseArgs prog args = .error r →
      r.exit = 1 ∧ (∀ e ∈ r.trace, ∃ t, e = .stderr t) ∧ ∀ env, main env prog args = r) ∧
    (∀ f, parseArgs prog args = .ok f →
      f.commitMsg ≠ [] ∧ isFlag f.commitMsg = false ∧
      ∃ tail, args = args.takeWhile isFlag ++ f.commitMsg :: tail) := by
  have hflagsOnly : (∀ t ∈ args, isFlag t = true) ↔ args.dropWhile isFlag = [] := by
    rw [List.dropWhile_eq_nil_iff]
  refine ⟨?_, ?_, ?_⟩
  · rw [parseArgs_eq, hflagsOnly]
    by_cases hnil : args = []
    · subst hnil; simp
    · rw [if_neg hnil]
      cases hd : args.dropWhile isFlag with
      | nil => simp
      | cons msg tail =>
        by_cases hm : msg = []
        · subst hm; simp
        · simp [hm]
  · intro r hr
    have hmain : ∀ env, main env prog args = r := by
      intro env; unfold main; rw [hr]
    rw [parseArgs_eq] at hr
    by_cases hnil : args = []
    · rw [if_pos hnil] at hr
      injection hr with hr
      subst hr
      refine ⟨rfl, ?_, hmain⟩
      intro e he
      simp only [usage, eprintf, List.mem_cons, List.mem_singleton, List.not_mem_nil,
        or_false] at he
      rcases he with h | h | h | h | h <;> exact ⟨_, h⟩
    · rw [if_neg hnil] at hr
      by_cases hm : (args.dropWhile isFlag).headD [] = []
      · rw [if_pos hm] at hr
        injection hr with hr
        subst hr
        refine ⟨rfl, ?_, hmain⟩
        intro e he
        simp only [missingMessage, eprintf, List.mem_singleton] at he
        exact ⟨_, he⟩
      · rw [if_neg hm] at hr; cases hr
  · intro f hf
    obtain ⟨msg, tail, hd, hmsg2, hnf, hf⟩ := parseArgs_ok_inv prog args f hf
    subst hf
    refine ⟨hmsg2, hnf, tail, ?_⟩
    conv_lhs => rw [args_split args, hd]

/-- Witness for `parseArgs_outcome`: `--dryrun` alone fails with code 1, and
`--major "release"` succeeds with the message `release`. -/
theorem parseArgs_outcome_witness :
    (parseArgs "bump".toList ["--dryrun".toList] = .error missingMessage ∧
      missingMessage.exit = 1) ∧
    (parseArgs "bump".toList ["--major".toList, "release".toList]
        = .ok ⟨"major".toList, false, "release".toList⟩ ∧
      "release".toList ≠ []) :=
  ⟨⟨by decide,
    ((parseArgs_outcome "bump".toList ["--dryrun".toList]).2.1 missingMessage (by decide)).1⟩,
   ⟨by decide,
    ((parseArgs_outcome "bump".toList ["--major".toList, "release".toList]).2.2
      ⟨"major".toList, false, "release".toList⟩ (by decide)).1⟩⟩

/-! ## Dry runs -/

/-- A failed parse is one of the two usage failures. -/
theorem parseArgs_error_inv (prog : Str) (args : List Str) (r : Run)
    (h : parseArgs prog args = .error r) : r = ⟨usage prog, 1⟩ ∨ r = missingMessage := by
  unfold parseArgs at h
  split at h
  · injection h with h; exact Or.inl h.symm
  · split at h
    · injection h with h; exact Or.inr h.symm
    · cases h

/-- The usage failures only print. -/
theorem usage_isPrint (prog : Str) : ∀ e ∈ usage prog, e.isPrint = true := by
  intro e he
  simp only [usage, eprintf, List.mem_cons, List.mem_singleton, List.not_mem_nil,
    or_false] at he
  rcases he with h | h | h | h | h <;> rw [h] <;> rfl

/-- After the new version is known, a dry run only prints and ends with code 0. -/
theorem release_dryRun (env : Env) (f : Flags) (data : Str) (pkg : List (Str × JValue))
    (oldVersion new : Str) (h : f.dryRun = true) :
    release env f data pkg oldVersion new =
      ⟨dryRunOutput (hasPackageScript pkg) f.commitMsg
        ((asString (index pkg "name".toList)).getD []) oldVersion new, 0⟩ := by
  unfold release writeStep packageStep gitStep clipboardStep dryRunOutput
  rw [h]
  cases hasPackageScript pkg <;> simp [Run.after]

/-- Everything a dry run prints after the new version is known is a print. -/
theorem dryRunOutput_isPrint (hasScript : Bool) (commitMsg name oldVersion new : Str) :
    ∀ e ∈ dryRunOutput hasScript commitMsg name oldVersion new, e.isPrint = true := by
  have hall : (dryRunOutput hasScript commitMsg name oldVersion new).all Effect.isPrint
      = true := by
    cases hasScript <;> rfl
  exact fun e he => List.all_eq_true.mp hall e he

/-- In a dry run, what follows the argument parser reads the manifest and prints. -/
theorem afterFlags_dryRun (env : Env) (f : Flags) (h : f.dryRun = true) :
    ∀ e ∈ (afterFlags env f).trace, e = .readFile packageFile ∨ e.isPrint = true := by
  intro e he
  unfold afterFlags at he
  simp only [Run.after, List.singleton_append, List.mem_cons] at he
  rcases he with he | he
  · exact Or.inl he
  · right
    split at he
    · simp only [eprintf, List.mem_singleton] at he; rw [he]; rfl
    · split at he
      · simp only [eprintf, List.mem_singleton] at he; rw [he]; rfl
      · split at he
        · simp only [eprintf, List.mem_singleton] at he; rw [he]; rfl
        · split at he
          · simp only [List.mem_singleton] at he; rw [he]; rfl
          · rw [release_dryRun _ _ _ _ _ _ h] at he
            exact dryRunOutput_isPrint _ _ _ _ _ e he

/-- C5 (dry run performs no mutation): when `--dryrun` is among the flags before the
commit message, every effect of the run is the read of the manifest or a print; no
effect is a file write or a child process (packaging, version control, clipboard),
whatever the environment and whether or not a `package` script exists. -/
theorem dry_run_no_mutation (env : Env) (prog : Str) (args : List Str)
    (hdry : "--dryrun".toList ∈ args.takeWhile isFlag) :
    ∀ e ∈ (main env prog args).trace,
      e.mutates = false ∧ (e = .readFile packageFile ∨ e.isPrint = true) := by
  have hquiet : ∀ e : Effect, (e = .readFile packageFile ∨ e.isPrint = true) →
      e.mutates = false ∧ (e = .readFile packageFile ∨ e.isPrint = true) := by
    intro e he
    refine ⟨?_, he⟩
    rcases he with he | he
    · rw [he]; rfl
    · cases e <;> first | rfl | cases he
  intro e he
  apply hquiet
  unfold main at he
  cases hp : parseArgs prog args with
  | error r =>
    rw [hp] at he
    right
    rcases parseArgs_error_inv prog args r hp with h | h
    · rw [h] at he; exact usage_isPrint prog e he
    · rw [h] at he
      simp only [missingMessage, eprintf, List.mem_singleton] at he
      rw [he]; rfl
  | ok f =>
    rw [hp] at he
    obtain ⟨msg, tail, -, -, -, hf⟩ := parseArgs_ok_inv prog args f hp
    have hd : f.dryRun = true := by rw [hf]; simpa using hdry
    exact afterFlags_dryRun env f hd e he

/-- Witness for `dry_run_no_mutation`: `--major --dryrun "release"` in the example
world, a run of twelve effects. -/
theorem dry_run_no_mutation_witness :
    "--dryrun".toList ∈
      ["--major".toList, "--dryrun".toList, "release".toList].takeWhile isFlag ∧
    (main acmeEnv "bump".toList
      ["--major".toList, "--dryrun".toList, "release".toList]).trace.length = 12 ∧
    ∀ e ∈ (main acmeEnv "bump".toList
        ["--major".toList, "--dryrun".toList, "release".toList]).trace,
      e.mutates = false ∧ (e = .readFile packageFile ∨ e.isPrint = true) :=
  ⟨by decide, by decide,
   dry_run_no_mutation acmeEnv "bump".toList
     ["--major".toList, "--dryrun".toList, "release".toList] (by decide)⟩

/-! ## The end-to-end dry run -/

/-- C7, counterexample: on the example manifest, `--dryrun "release"` selects no
bump flag, so the mode is `patch` and the version computed and printed is 1.2.4;
the line announcing 1.3.0 is not printed. -/
theorem dry_run_example_is_patch_bump :
    (parseFlags ["--dryrun".toList, "release".toList] initFlags).bumpType = "patch".toList ∧
    newVersion acmeEnv.Quote "patch".toList "1.2.3".toList = .ok "1.2.4".toList ∧
    main acmeEnv "bump".toList ["--dryrun".toList, "release".toList] = ⟨acmeDryRunTrace, 0⟩ ∧
    Effect.stdout "\n✅ Dry run complete - version would be 1.3.0\n".toList
      ∉ (main acmeEnv "bump".toList ["--dryrun".toList, "release".toList]).trace := by
  refine ⟨by decide, by decide, by decide, by decide⟩

/-- C7 (amended): in every world whose `package.json` holds the example manifest at
version 1.2.3, the run with `--dryrun "release"` reads the manifest and prints;
it writes no file and starts no command (so the manifest stays at 1.2.3 and no git
command runs), and the new version it computes and prints is 1.2.4. -/
theorem dry_run_example (env : Env) (prog : Str)
    (hread : env.ReadFile packageFile = .ok acmeManifest)
    (hdec : env.Unmarshal acmeManifest = .ok acmePkg) :
    main env prog ["--dryrun".toList, "release".toList] = ⟨acmeDryRunTrace, 0⟩ ∧
    newVersion env.Quote
      (parseFlags ["--dryrun".toList, "release".toList] initFlags).bumpType "1.2.3".toList
        = .ok "1.2.4".toList ∧
    (∀ e ∈ (main env prog ["--dryrun".toList, "release".toList]).trace, e.mutates = false) := by
  have hp : parseArgs prog ["--dryrun".toList, "release".toList]
      = .ok ⟨"patch".toList, true, "release".toList⟩ := rfl
  have hv : newVersion env.Quote "patch".toList "1.2.3".toList = .ok "1.2.4".toList := rfl
  have hver : asString (index acmePkg "version".toList) = some "1.2.3".toList := rfl
  have hout : dryRunOutput (hasPackageScript acmePkg) "release".toList
      ((asString (index acmePkg "name".toList)).getD []) "1.2.3".toList "1.2.4".toList
        = acmeDryRunTrace.tail := by decide
  have hmain : main env prog ["--dryrun".toList, "release".toList] = ⟨acmeDryRunTrace, 0⟩ := by
    unfold main
    rw [hp]
    unfold afterFlags
    simp only [hread, hdec, hver, hv]
    rw [release_dryRun _ _ _ _ _ _ rfl, hout]
    rfl
  refine ⟨hmain, rfl, ?_⟩
  rw [hmain]
  decide

/-- Witness for `dry_run_example`: the example world. -/
theorem dry_run_example_witness :
    main acmeEnv "bump".toList ["--dryrun".toList, "release".toList] = ⟨acmeDryRunTrace, 0⟩ :=
  (dry_run_example acmeEnv "bump".toList rfl rfl).1

/-! ## Malformed versions -/

/-- The format error, written out. -/
theorem sprintf_invalid_format (version : Str) :
    Sprintf "Invalid version format: %s (expected x.y.z)\n".toList [.str version]
      = "Invalid version format: ".toList ++ version ++ " (expected x.y.z)\n".toList := rfl

/-- The three conversion errors, written out. -/
theorem sprintf_parse_error (text : Str) :
    Sprintf "Error parsing major version: %v\n".toList [.str text]
      = "Error parsing major version: ".toList ++ text ++ "\n".toList ∧
    Sprintf "Error parsing minor version: %v\n".toList [.str text]
      = "Error parsing minor version: ".toList ++ text ++ "\n".toList ∧
    Sprintf "Error parsing patch version: %v\n".toList [.str text]
      = "Error parsing patch version: ".toList ++ text ++ "\n".toList :=
  ⟨rfl, rfl, rfl⟩

/-- An error of `Atoi` carries the function name and the text it was given. -/
theorem Atoi_error_inv (s : Str) (e : NumError) (h : Atoi s = .error e) :
    e.Func = "Atoi".toList ∧ e.Num = s := by
  unfold Atoi at h
  split at h
  · injection h with h; subst h; exact ⟨rfl, rfl⟩
  · simp only at h
    repeat' split at h
    all_goals first | (injection h with h; subst h; exact ⟨rfl, rfl⟩) | cases h

/-- A version that does not split into three parts is a format error. -/
theorem parseVersion_bad_length (Quote : Str → Str) (version : Str)
    (h : (Split version '.').length ≠ 3) :
    parseVersion Quote version =
      .error ("Invalid version format: ".toList ++ version ++ " (expected x.y.z)\n".toList) := by
  unfold parseVersion
  split
  · rename_i p0 p1 p2 heq
    rw [heq] at h
    exact absurd rfl h
  · rw [sprintf_invalid_format]

/-- The version parser on a version of three parts. -/
theorem parseVersion_parts (Quote : Str → Str) (version p0 p1 p2 : Str)
    (h : Split version '.' = [p0, p1, p2]) :
    parseVersion Quote version =
      match Atoi p0 with
      | .error e => .error ("Error parsing major version: ".toList ++ e.Error Quote ++ "\n".toList)
      | .ok major =>
        match Atoi p1 with
        | .error e =>
          .error ("Error parsing minor version: ".toList ++ e.Error Quote ++ "\n".toList)
        | .ok minor =>
          match Atoi p2 with
          | .error e =>
            .error ("Error parsing patch version: ".toList ++ e.Error Quote ++ "\n".toList)
          | .ok patch => .ok (major, minor, patch) := by
  unfold parseVersion
  rw [h]
  simp only [(sprintf_parse_error _).1, (sprintf_parse_error _).2.1, (sprintf_parse_error _).2.2]

/-- A run whose version parser fails reads the manifest, prints the error and exits
with code 1. -/
theorem main_version_error (env : Env) (prog : Str) (args : List Str) (f : Flags)
    (data : Str) (pkg : List (Str × JValue)) (version msg : Str)
    (hargs : parseArgs prog args = .ok f)
    (hread : env.ReadFile packageFile = .ok data)
    (hdec : env.Unmarshal data = .ok pkg)
    (hver : asString (index pkg "version".toList) = some version)
    (hbad : parseVersion env.Quote version = .error msg) :
    newVersion env.Quote f.bumpType version = .error msg ∧
    main env prog args = ⟨[.readFile packageFile, .stderr msg], 1⟩ := by
  have hnv : newVersion env.Quote f.bumpType version = .error msg := by
    unfold newVersion; rw [hbad]
  refine ⟨hnv, ?_⟩
  unfold main
  rw [hargs]
  unfold afterFlags
  simp only [hread, hdec, hver, hnv]
  rfl

/-- C4 (malformed version rejection): once the arguments are parsed and the manifest
is read and decoded with a string `version`, a version that does not split on `.`
into exactly three parts ends the run with code 1 and the format error naming the
version; a version of three parts one of which `Atoi` rejects ends the run with
code 1 and the error naming the first such part (major, then minor, then patch)
and carrying its text.  In each case no new version is computed and the run
consists of the manifest read and the error line: no write, no command. -/
theorem malformed_version_rejected (env : Env) (prog : Str) (args : List Str) (f : Flags)
    (data : Str) (pkg : List (Str × JValue)) (version : Str)
    (hargs : parseArgs prog args = .ok f)
    (hread : env.ReadFile packageFile = .ok data)
    (hdec : env.Unmarshal data = .ok pkg)
    (hver : asString (index pkg "version".toList) = some version) :
    ((Split version '.').length ≠ 3 →
      ∃ msg, msg = "Invalid version format: ".toList ++ version ++ " (expected x.y.z)\n".toList ∧
        newVersion env.Quote f.bumpType version = .error msg ∧
        main env prog args = ⟨[.readFile packageFile, .stderr msg], 1⟩) ∧
    (∀ p0 p1 p2, Split version '.' = [p0, p1, p2] →
      (∀ e, Atoi p0 = .error e →
        ∃ msg, msg = "Error parsing major version: ".toList ++ e.Error env.Quote ++ "\n".toList ∧
          e.Num = p0 ∧
          newVersion env.Quote f.bumpType version = .error msg ∧
          main env prog args = ⟨[.readFile packageFile, .stderr msg], 1⟩) ∧
      (∀ major e, Atoi p0 = .ok major → Atoi p1 = .error e →
        ∃ msg, msg = "Error parsing minor version: ".toList ++ e.Error env.Quote ++ "\n".toList ∧
          e.Num = p1 ∧
          newVersion env.Quote f.bumpType version = .error msg ∧
          main env prog args = ⟨[.readFile packageFile, .stderr msg], 1⟩) ∧
      (∀ major minor e, Atoi p0 = .ok major → Atoi p1 = .ok minor → Atoi p2 = .error e →
        ∃ msg, msg = "Error parsing patch version: ".toList ++ e.Error env.Quote ++ "\n".toList ∧
          e.Num = p2 ∧
          newVersion env.Quote f.bumpType version = .error msg ∧
          main env prog args = ⟨[.readFile packageFile, .stderr msg], 1⟩)) := by
  refine ⟨?_, ?_⟩
  · intro hlen
    exact ⟨_, rfl, main_version_error env prog args f data pkg version _ hargs hread hdec hver
      (parseVersion_bad_length env.Quote version hlen)⟩
  · intro p0 p1 p2 hsplit
    have hp := parseVersion_parts env.Quote version p0 p1 p2 hsplit
    refine ⟨?_, ?_, ?_⟩
    · intro e he
      rw [he] at hp
      exact ⟨_, rfl, (Atoi_error_inv p0 e he).2,
        main_version_error env prog args f data pkg version _ hargs hread hdec hver hp⟩
    · intro major e h0 he
      rw [h0, he] at hp
      exact ⟨_, rfl, (Atoi_error_inv p1 e he).2,
        main_version_error env prog args f data pkg version _ hargs hread hdec hver hp⟩
    · intro major minor e h0 h1 he
      rw [h0, h1, he] at hp
      exact ⟨_, rfl, (Atoi_error_inv p2 e he).2,
        main_version_error env prog args f data pkg version _ hargs hread hdec hver hp⟩

/-- Witness for `malformed_version_rejected`: the version `1.2` has two parts and
the version `1.x.3` has a middle part that is no integer. -/
theorem malformed_version_rejected_witness :
    (∃ msg, msg = "Invalid version format: ".toList ++ "1.2".toList
          ++ " (expected x.y.z)\n".toList ∧
        newVersion (worldOf "\x7b\"version\": \"1.2\"\x7d".toList
            [("version".toList, .string "1.2".toList)]).Quote
          "patch".toList "1.2".toList = .error msg ∧
        main (worldOf "\x7b\"version\": \"1.2\"\x7d".toList
            [("version".toList, .string "1.2".toList)]) "bump".toList ["fix".toList]
          = ⟨[.readFile packageFile, .stderr msg], 1⟩) ∧
    (∃ msg, msg = "Error parsing minor version: ".toList
          ++ "strconv.Atoi: parsing \"x\": invalid syntax".toList ++ "\n".toList ∧
        ("x".toList : Str) = "x".toList ∧
        newVersion (worldOf "\x7b\"version\": \"1.x.3\"\x7d".toList
            [("version".toList, .string "1.x.3".toList)]).Quote
          "patch".toList "1.x.3".toList = .error msg ∧
        main (worldOf "\x7b\"version\": \"1.x.3\"\x7d".toList
            [("version".toList, .string "1.x.3".toList)]) "bump".toList ["fix".toList]
          = ⟨[.readFile packageFile, .stderr msg], 1⟩) :=
  ⟨(malformed_version_rejected
      (worldOf "\x7b\"version\": \"1.2\"\x7d".toList [("version".toList, .string "1.2".toList)])
      "bump".toList ["fix".toList] ⟨"patch".toList, false, "fix".toList⟩
      "\x7b\"version\": \"1.2\"\x7d".toList [("version".toList, .string "1.2".toList)]
      "1.2".toList rfl rfl rfl rfl).1 (by decide),
   ((malformed_version_rejected
      (worldOf "\x7b\"version\": \"1.x.3\"\x7d".toList [("version".toList, .string "1.x.3".toList)])
      "bump".toList ["fix".toList] ⟨"patch".toList, false, "fix".toList⟩
      "\x7b\"version\": \"1.x.3\"\x7d".toList [("version".toList, .string "1.x.3".toList)]
      "1.x.3".toList rfl rfl rfl rfl).2 "1".toList "x".toList "3".toList rfl).2.1
        1 ⟨"Atoi".toList, "x".toList, .invalidSyntax⟩ rfl rfl⟩

/-! ## Decimal numerals -/

/-- The ten digit characters. -/
theorem digit_char (k : Nat) (hk : k < 10) :
    (Char.ofNat (48 + k)).isDigit = true ∧ digitVal (Char.ofNat (48 + k)) = k ∧
      (Char.ofNat (48 + k) = '0' → k = 0) := by
  interval_cases k <;> decide

/-- A digit is none of the characters with a meaning of their own. -/
theorem isDigit_ne (c : Char) (h : c.isDigit = true) :
    c ≠ '-' ∧ c ≠ '+' ∧ c ≠ '.' ∧ c ≠ '$' := by
  refine ⟨?_, ?_, ?_, ?_⟩ <;> rintro rfl <;> exact absurd h (by decide)

theorem digitsValue_append_singleton (ds : Str) (c : Char) :
    digitsValue (ds ++ [c]) = digitsValue ds * 10 + digitVal c := by
  simp [digitsValue, List.foldl_append]

/-- The digit loop of the formatter writes the plain numeral in front of what is
already in the buffer. -/
theorem fmtUintAux_spec (fuel u : Nat) (acc : Str) (h : u < fuel) :
    ∃ ds, fmtUintAux fuel u acc = ds ++ acc ∧ PlainDigits u ds := by
  induction fuel generalizing u acc with
  | zero => omega
  | succ fuel ih =>
    unfold fmtUintAux
    by_cases hu : u < 10
    · rw [if_pos hu]
      obtain ⟨h1, h2, h3⟩ := digit_char u hu
      refine ⟨[Char.ofNat (48 + u)], rfl, by simp, ?_, ?_, ?_⟩
      · intro c hc
        rw [List.mem_singleton] at hc
        rw [hc]; exact h1
      · intro hh
        simp only [List.head?_cons, Option.some.injEq] at hh
        rw [hh]
      · simp [digitsValue, h2]
    · rw [if_neg hu]
      have hlt : u / 10 < fuel := by omega
      obtain ⟨ds, hds, hne, hdig, hlead, hval⟩ := ih (u / 10) (Char.ofNat (48 + u % 10) :: acc) hlt
      obtain ⟨h1, h2, -⟩ := digit_char (u % 10) (Nat.mod_lt _ (by decide))
      refine ⟨ds ++ [Char.ofNat (48 + u % 10)], ?_, by simp, ?_, ?_, ?_⟩
      · rw [hds]; simp
      · intro c hc
        rw [List.mem_append, List.mem_singleton] at hc
        rcases hc with hc | hc
        · exact hdig c hc
        · rw [hc]; exact h1
      · intro hh
        exfalso
        cases ds with
        | nil => exact hne rfl
        | cons d ds' =>
          simp only [List.cons_append, List.head?_cons, Option.some.injEq] at hh
          have := hlead (by simp [hh])
          rw [this] at hval
          have hz : digitsValue ['0'] = 0 := by decide
          rw [hz] at hval
          omega
      · rw [digitsValue_append_singleton, hval, h2]
        omega

/-- The unsigned formatter writes the plain numeral. -/
theorem fmtUint_plain (u : Nat) : PlainDigits u (fmtUint u) := by
  obtain ⟨ds, hds, hp⟩ := fmtUintAux_spec (u + 1) u [] (Nat.lt_succ_self u)
  unfold fmtUint
  rw [hds, List.append_nil]
  exact hp

/-- The verb `%d` writes the plain decimal numeral of its operand. -/
theorem fmtInt_plain (n : Int) : PlainDecimal n (fmtInt n) :=
  ⟨fmtUint n.natAbs, fmtUint_plain n.natAbs, rfl⟩

/-- A formatted version is the three formatted components joined by dots. -/
theorem formatVersion_eq (a b c : Int) :
    formatVersion (a, b, c) = fmtInt a ++ '.' :: (fmtInt b ++ '.' :: fmtInt c) := by
  show (fmtInt a ++ '.' :: (fmtInt b ++ '.' :: (fmtInt c ++ []))) = _
  rw [List.append_nil]

/-- A plain numeral holds digits and possibly a leading minus sign only. -/
theorem PlainDecimal.chars (n : Int) (s : Str) (h : PlainDecimal n s) :
    ∀ c ∈ s, c = '-' ∨ c.isDigit = true := by
  obtain ⟨ds, ⟨-, hdig, -, -⟩, hs⟩ := h
  intro c hc
  rw [hs] at hc
  split at hc
  · rw [List.mem_cons] at hc
    rcases hc with hc | hc
    · exact Or.inl hc
    · exact Or.inr (hdig c hc)
  · exact Or.inr (hdig c hc)

/-- No formatted version holds a `$`, the one character template expansion interprets. -/
theorem dollar_not_mem_formatVersion (v : Int × Int × Int) : '$' ∉ formatVersion v := by
  obtain ⟨a, b, c⟩ := v
  rw [formatVersion_eq]
  intro h
  have key : ∀ n : Int, '$' ∉ fmtInt n := by
    intro n hn
    rcases PlainDecimal.chars n _ (fmtInt_plain n) '$' hn with h | h
    · exact absurd h (by decide)
    · exact absurd h (by decide)
  simp only [List.mem_append, List.mem_cons] at h
  rcases h with h | h | h | h | h
  · exact key a h
  · exact absurd h (by decide)
  · exact key b h
  · exact absurd h (by decide)
  · exact key c h

/-! ## `Atoi` -/

/-- A successful digit loop read digits only, and its result is the fold over them. -/
theorem parseUintLoop_ok_inv (ds : Str) (n m : Nat) (h : parseUintLoop ds n = .ok m) :
    (∀ c ∈ ds, c.isDigit = true) ∧ m = ds.foldl (fun acc c => acc * 10 + digitVal c) n := by
  induction ds generalizing n with
  | nil =>
    unfold parseUintLoop at h
    injection h with h
    subst h
    exact ⟨by simp, rfl⟩
  | cons c cs ih =>
    unfold parseUintLoop at h
    split at h
    · rename_i hc
      split at h
      · cases h
      · obtain ⟨h1, h2⟩ := ih _ h
        refine ⟨?_, ?_⟩
        · intro d hd
          rw [List.mem_cons] at hd
          rcases hd with hd | hd
          · rw [hd]; exact hc
          · exact h1 d hd
        · rw [List.foldl_cons]; exact h2
    · cases h

/-- The fold over digits does not decrease. -/
theorem le_foldl_digits (ds : Str) (n : Nat) :
    n ≤ ds.foldl (fun acc c => acc * 10 + digitVal c) n := by
  induction ds generalizing n with
  | nil => exact Nat.le_refl n
  | cons c cs ih =>
    rw [List.foldl_cons]
    have := ih (n * 10 + digitVal c)
    omega

/-- On digits whose value fits 64 bits the digit loop succeeds. -/
theorem parseUintLoop_of_digits (ds : Str) (n : Nat) (hdig : ∀ c ∈ ds, c.isDigit = true)
    (hfit : ds.foldl (fun acc c => acc * 10 + digitVal c) n ≤ 2 ^ 64 - 1) :
    parseUintLoop ds n = .ok (ds.foldl (fun acc c => acc * 10 + digitVal c) n) := by
  induction ds generalizing n with
  | nil => rfl
  | cons c cs ih =>
    have hc : c.isDigit = true := hdig c (List.mem_cons_self _ _)
    have hcs : ∀ d ∈ cs, d.isDigit = true := fun d hd => hdig d (List.mem_cons_of_mem _ hd)
    rw [List.foldl_cons] at hfit ⊢
    have hle := le_foldl_digits cs (n * 10 + digitVal c)
    unfold parseUintLoop
    rw [if_pos hc, if_neg (by omega)]
    exact ih _ hcs hfit

/-- What `Atoi` accepts: an optional sign, digits, a value in the range of `int`. -/
theorem Atoi_ok_inv (s : Str) (n : Int) (h : Atoi s = .ok n) : IsInteger s n := by
  unfold Atoi at h
  split at h
  · cases h
  · rename_i c rest
    simp only at h
    have hshape : (c = '-' ∧ decide (c = '-') = true ∧
          (if c = '-' ∨ c = '+' then rest else c :: rest) = rest) ∨
        (c = '+' ∧ decide (c = '-') = false ∧
          (if c = '-' ∨ c = '+' then rest else c :: rest) = rest) ∨
        (decide (c = '-') = false ∧
          (if c = '-' ∨ c = '+' then rest else c :: rest) = c :: rest) := by
      by_cases hm : c = '-'
      · exact Or.inl ⟨hm, by simp [hm], by simp [hm]⟩
      · by_cases hp : c = '+'
        · exact Or.inr (Or.inl ⟨hp, by simp [hp], by simp [hp]⟩)
        · exact Or.inr (Or.inr ⟨by simp [hm], by simp [hm, hp]⟩)
    generalize decide (c = '-') = neg at h hshape
    generalize (if c = '-' ∨ c = '+' then rest else c :: rest) = digits at h hshape
    split at h
    · cases h
    · rename_i hne
      split at h
      · cases h
      · cases h
      · rename_i un hun
        obtain ⟨hdig, hval⟩ := parseUintLoop_ok_inv _ _ _ hun
        have hv : un = digitsValue digits := hval
        split at h
        · cases h
        · rename_i hpos
          split at h
          · cases h
          · rename_i hneg
            injection h with h
            refine ⟨digits, hne, hdig, ?_⟩
            rw [← hv]
            simp only [intSize, not_and, not_le, not_lt, ge_iff_le, gt_iff_lt] at hpos hneg
            norm_num [minInt, maxInt, intSize]
            rcases hshape with ⟨hc, hn, hd⟩ | ⟨hc, hn, hd⟩ | ⟨hn, hd⟩
            · subst hn
              have h2 := hneg rfl
              simp only [if_true] at h
              norm_num at h2
              refine ⟨by omega, by omega, Or.inr (Or.inr ⟨⟨hc, hd.symm⟩, h.symm⟩)⟩
            · subst hn
              have h1 := hpos rfl
              simp only [Bool.false_eq_true, if_false] at h
              norm_num at h1
              refine ⟨by omega, by omega, Or.inr (Or.inl ⟨⟨hc, hd.symm⟩, h.symm⟩)⟩
            · subst hn
              have h1 := hpos rfl
              simp only [Bool.false_eq_true, if_false] at h
              norm_num at h1
              refine ⟨by omega, by omega, Or.inl ⟨hd.symm, h.symm⟩⟩

/-- A value `Atoi` returns is in the range of `int`. -/
theorem Atoi_range (s : Str) (n : Int) (h : Atoi s = .ok n) : minInt ≤ n ∧ n ≤ maxInt := by
  obtain ⟨ds, -, -, h1, h2, -⟩ := Atoi_ok_inv s n h
  exact ⟨h1, h2⟩

/-- Reading back what `%d` printed gives the value printed. -/
theorem Atoi_fmtInt (n : Int) (h1 : minInt ≤ n) (h2 : n ≤ maxInt) : Atoi (fmtInt n) = .ok n := by
  obtain ⟨hne, hdig, -, hval⟩ := fmtUint_plain n.natAbs
  have hfit : (fmtUint n.natAbs).foldl (fun acc c => acc * 10 + digitVal c) 0 ≤ 2 ^ 64 - 1 := by
    have : digitsValue (fmtUint n.natAbs) = n.natAbs := hval
    unfold digitsValue at this
    rw [this]
    norm_num [minInt, maxInt, intSize] at h1 h2
    omega
  have hloop := parseUintLoop_of_digits _ 0 hdig hfit
  have hv : (fmtUint n.natAbs).foldl (fun acc c => acc * 10 + digitVal c) 0 = n.natAbs := hval
  rw [hv] at hloop
  unfold fmtInt
  by_cases hn : n < 0
  · rw [if_pos hn]
    unfold Atoi
    simp only [true_or, if_true, if_neg hne, hloop, decide_True]
    norm_num [minInt, maxInt, intSize] at h1 h2 ⊢
    rw [if_neg (by omega), abs_of_neg hn, neg_neg]
  · rw [if_neg hn]
    cases hds : fmtUint n.natAbs with
    | nil => exact absurd hds hne
    | cons c rest =>
      have hc : c.isDigit = true := hdig c (by rw [hds]; exact List.mem_cons_self _ _)
      obtain ⟨hm, hp, -, -⟩ := isDigit_ne c hc
      rw [hds] at hloop
      unfold Atoi
      simp only [hm, hp, or_self, if_false, hloop, decide_False, List.cons_ne_nil]
      norm_num [minInt, maxInt, intSize] at h1 h2 ⊢
      rw [if_neg (by omega), abs_of_nonneg (by omega)]

/-! ## Machine integers -/

theorem wrapInt_of_range (n : Int) (h1 : minInt ≤ n) (h2 : n ≤ maxInt) : wrapInt n = n := by
  unfold wrapInt
  norm_num [minInt, maxInt, intSize] at *
  omega

theorem wrapInt_range (n : Int) : minInt ≤ wrapInt n ∧ wrapInt n ≤ maxInt := by
  unfold wrapInt
  norm_num [minInt, maxInt, intSize]
  omega

theorem zero_range : minInt ≤ 0 ∧ (0 : Int) ≤ maxInt := by
  norm_num [minInt, maxInt, intSize]

/-- The bump of components in the range of `int` has its components in that range. -/
theorem bump_range (bumpType : Str) (a b c : Int)
    (ha : minInt ≤ a ∧ a ≤ maxInt) (hb : minInt ≤ b ∧ b ≤ maxInt)
    (hc : minInt ≤ c ∧ c ≤ maxInt) :
    (minInt ≤ (bump bumpType (a, b, c)).1 ∧ (bump bumpType (a, b, c)).1 ≤ maxInt) ∧
    (minInt ≤ (bump bumpType (a, b, c)).2.1 ∧ (bump bumpType (a, b, c)).2.1 ≤ maxInt) ∧
    (minInt ≤ (bump bumpType (a, b, c)).2.2 ∧ (bump bumpType (a, b, c)).2.2 ≤ maxInt) := by
  unfold bump
  split
  · exact ⟨wrapInt_range _, zero_range, zero_range⟩
  · split
    · exact ⟨ha, wrapInt_range _, zero_range⟩
    · split
      · exact ⟨ha, hb, wrapInt_range _⟩
      · exact ⟨ha, hb, hc⟩

/-! ## Splitting and parsing versions -/

/-- A piece without dot in front of a dot is the first piece of the split. -/
theorem Split_append_dot (p rest : Str) (hp : '.' ∉ p) :
    Split (p ++ '.' :: rest) '.' = p :: Split rest '.' := by
  induction p with
  | nil => rw [List.nil_append, Split, if_pos rfl]
  | cons c cs ih =>
    have hc : c ≠ '.' := fun h => hp (by rw [h]; exact List.mem_cons_self _ _)
    have hcs : '.' ∉ cs := fun h => hp (List.mem_cons_of_mem _ h)
    rw [List.cons_append, Split, if_neg hc, ih hcs]

/-- A string without dot is its own single piece. -/
theorem Split_no_dot (p : Str) (hp : '.' ∉ p) : Split p '.' = [p] := by
  induction p with
  | nil => rfl
  | cons c cs ih =>
    have hc : c ≠ '.' := fun h => hp (by rw [h]; exact List.mem_cons_self _ _)
    have hcs : '.' ∉ cs := fun h => hp (List.mem_cons_of_mem _ h)
    rw [Split, if_neg hc, ih hcs]

/-- What `%d` prints holds no dot. -/
theorem dot_not_mem_fmtInt (n : Int) : '.' ∉ fmtInt n := by
  intro hn
  rcases PlainDecimal.chars n _ (fmtInt_plain n) '.' hn with h | h
  · exact absurd h (by decide)
  · exact absurd h (by decide)

/-- A formatted version splits into its three formatted components. -/
theorem Split_formatVersion (a b c : Int) :
    Split (formatVersion (a, b, c)) '.' = [fmtInt a, fmtInt b, fmtInt c] := by
  rw [formatVersion_eq, Split_append_dot _ _ (dot_not_mem_fmtInt a),
    Split_append_dot _ _ (dot_not_mem_fmtInt b), Split_no_dot _ (dot_not_mem_fmtInt c)]

/-- A version the parser accepts has three parts that `Atoi` accepts. -/
theorem parseVersion_ok_inv (Quote : Str → Str) (version : Str) (a b c : Int)
    (h : parseVersion Quote version = .ok (a, b, c)) :
    ∃ p0 p1 p2, Split version '.' = [p0, p1, p2] ∧
      Atoi p0 = .ok a ∧ Atoi p1 = .ok b ∧ Atoi p2 = .ok c := by
  unfold parseVersion at h
  split at h
  · rename_i p0 p1 p2 hsplit
    refine ⟨p0, p1, p2, hsplit, ?_⟩
    cases h0 : Atoi p0 with
    | error e => rw [h0] at h; cases h
    | ok major =>
      cases h1 : Atoi p1 with
      | error e => rw [h0, h1] at h; cases h
      | ok minor =>
        cases h2 : Atoi p2 with
        | error e => rw [h0, h1, h2] at h; cases h
        | ok patch =>
          rw [h0, h1, h2] at h
          simp only [Except.ok.injEq, Prod.mk.injEq] at h
          obtain ⟨ha, hb, hc⟩ := h
          rw [ha, hb, hc]
          exact ⟨rfl, rfl, rfl⟩
  · cases h

/-- Three parts that `Atoi` accepts make a version the parser accepts. -/
theorem parseVersion_of_parts (Quote : Str → Str) (version p0 p1 p2 : Str) (a b c : Int)
    (hsplit : Split version '.' = [p0, p1, p2])
    (h0 : Atoi p0 = .ok a) (h1 : Atoi p1 = .ok b) (h2 : Atoi p2 = .ok c) :
    parseVersion Quote version = .ok (a, b, c) := by
  unfold parseVersion
  rw [hsplit]
  simp only [h0, h1, h2]

/-- Parsing a formatted version of components in the range of `int` gives them back. -/
theorem parseVersion_formatVersion (Quote : Str → Str) (a b c : Int)
    (ha : minInt ≤ a ∧ a ≤ maxInt) (hb : minInt ≤ b ∧ b ≤ maxInt)
    (hc : minInt ≤ c ∧ c ≤ maxInt) :
    parseVersion Quote (formatVersion (a, b, c)) = .ok (a, b, c) :=
  parseVersion_of_parts Quote _ _ _ _ a b c (Split_formatVersion a b c)
    (Atoi_fmtInt a ha.1 ha.2) (Atoi_fmtInt b hb.1 hb.2) (Atoi_fmtInt c hc.1 hc.2)

/-- The new version of an accepted version is the formatted bump. -/
theorem newVersion_of_parse (Quote : Str → Str) (bumpType version : Str) (v : Int × Int × Int)
    (h : parseVersion Quote version = .ok v) :
    newVersion Quote bumpType version = .ok (formatVersion (bump bumpType v)) := by
  unfold newVersion
  rw [h]

/-- The numeral of zero. -/
theorem fmtInt_zero : fmtInt 0 = ['0'] := by decide

/-! ## The version calculator -/

/-- C1, counterexample: the version `1.2.9223372036854775807` is accepted, and its
patch bump is not `1.2.9223372036854775808`: the increment of the largest `int`
wraps around to the smallest. -/
theorem patch_bump_wraps :
    parseVersion acmeEnv.Quote "1.2.9223372036854775807".toList
      = .ok (1, 2, 9223372036854775807) ∧
    newVersion acmeEnv.Quote "patch".toList "1.2.9223372036854775807".toList
      = .ok "1.2.-9223372036854775808".toList ∧
    newVersion acmeEnv.Quote "patch".toList "1.2.9223372036854775807".toList
      ≠ .ok "1.2.9223372036854775808".toList := by
  refine ⟨by decide, by decide, by decide⟩

/-- C1 (amended): for a version string the tool accepts as the integers `a.b.c`, the
new version is `a.b.(c+1)` for the bump mode patch when `c` is below the largest
`int`, `a.(b+1).0` for minor when `b` is below it, and `(a+1).0.0` for major when
`a` is below it; each component is a plain decimal numeral (digits of the value, a
minus sign for a negative one, no leading zero, no padding). -/
theorem bump_rule (Quote : Str → Str) (version : Str) (a b c : Int)
    (h : parseVersion Quote version = .ok (a, b, c)) :
    (c < maxInt → ∃ sa sb sc,
      newVersion Quote "patch".toList version = .ok (sa ++ '.' :: (sb ++ '.' :: sc)) ∧
      PlainDecimal a sa ∧ PlainDecimal b sb ∧ PlainDecimal (c + 1) sc) ∧
    (b < maxInt → ∃ sa sb,
      newVersion Quote "minor".toList version = .ok (sa ++ '.' :: (sb ++ '.' :: ['0'])) ∧
      PlainDecimal a sa ∧ PlainDecimal (b + 1) sb) ∧
    (a < maxInt → ∃ sa,
      newVersion Quote "major".toList version = .ok (sa ++ '.' :: ('0' :: '.' :: ['0'])) ∧
      PlainDecimal (a + 1) sa) := by
  obtain ⟨p0, p1, p2, -, h0, h1, h2⟩ := parseVersion_ok_inv Quote version a b c h
  have ha := Atoi_range p0 a h0
  have hb := Atoi_range p1 b h1
  have hc := Atoi_range p2 c h2
  refine ⟨?_, ?_, ?_⟩
  · intro hlt
    have hw : wrapInt (c + 1) = c + 1 := wrapInt_of_range _ (by omega) (by omega)
    have hbump : bump "patch".toList (a, b, c) = (a, b, c + 1) := by
      unfold bump
      rw [if_neg (by decide), if_neg (by decide), if_pos rfl, hw]
    refine ⟨fmtInt a, fmtInt b, fmtInt (c + 1), ?_, fmtInt_plain a, fmtInt_plain b,
      fmtInt_plain (c + 1)⟩
    rw [newVersion_of_parse Quote _ version _ h, hbump, formatVersion_eq]
  · intro hlt
    have hw : wrapInt (b + 1) = b + 1 := wrapInt_of_range _ (by omega) (by omega)
    have hbump : bump "minor".toList (a, b, c) = (a, b + 1, 0) := by
      unfold bump
      rw [if_neg (by decide), if_pos rfl, hw]
    refine ⟨fmtInt a, fmtInt (b + 1), ?_, fmtInt_plain a, fmtInt_plain (b + 1)⟩
    rw [newVersion_of_parse Quote _ version _ h, hbump, formatVersion_eq, fmtInt_zero]
  · intro hlt
    have hw : wrapInt (a + 1) = a + 1 := wrapInt_of_range _ (by omega) (by omega)
    have hbump : bump "major".toList (a, b, c) = (a + 1, 0, 0) := by
      unfold bump
      rw [if_pos rfl, hw]
    refine ⟨fmtInt (a + 1), ?_, fmtInt_plain (a + 1)⟩
    rw [newVersion_of_parse Quote _ version _ h, hbump, formatVersion_eq, fmtInt_zero]
    rfl

/-- Witness for `bump_rule`: `1.2.3` with the bump mode minor gives `1.3.0`. -/
theorem bump_rule_witness :
    newVersion acmeEnv.Quote "minor".toList "1.2.3".toList = .ok "1.3.0".toList ∧
    ∃ sa sb,
      newVersion acmeEnv.Quote "minor".toList "1.2.3".toList
        = .ok (sa ++ '.' :: (sb ++ '.' :: ['0'])) ∧
      PlainDecimal 1 sa ∧ PlainDecimal (2 + 1) sb :=
  ⟨by decide, (bump_rule acmeEnv.Quote "1.2.3".toList 1 2 3 (by decide)).2.1 (by decide)⟩

/-- C8, counterexample: the versions `-1.2.3` and `+1.2.3` are accepted; their patch
bumps are `-1.2.4`, with a negative component, and `1.2.4`; a dry run on a
manifest at `-1.2.3` ends with code 0. -/
theorem signed_version_accepted :
    parseVersion acmeEnv.Quote "-1.2.3".toList = .ok (-1, 2, 3) ∧
    newVersion acmeEnv.Quote "patch".toList "-1.2.3".toList = .ok "-1.2.4".toList ∧
    newVersion acmeEnv.Quote "patch".toList "+1.2.3".toList = .ok "1.2.4".toList ∧
    (main (worldOf "\x7b\"version\": \"-1.2.3\"\x7d".toList
        [("version".toList, .string "-1.2.3".toList)])
      "bump".toList ["--dryrun".toList, "fix".toList]).exit = 0 := by
  refine ⟨by decide, by decide, by decide, by decide⟩

/-- C8 (amended): the tool computes a new version from a version string only if the
string splits on `.` into exactly three parts, each an integer with an optional sign
within the range of `int`; the version string it produces decomposes again into three
such integers, the bumped components; and these are non-negative when the three
components read are non-negative and below the largest `int`. -/
theorem accepted_versions (Quote : Str → Str) (bumpType version new : Str)
    (h : newVersion Quote bumpType version = .ok new) :
    ∃ p0 p1 p2 a b c,
      Split version '.' = [p0, p1, p2] ∧ IsInteger p0 a ∧ IsInteger p1 b ∧ IsInteger p2 c ∧
      new = formatVersion (bump bumpType (a, b, c)) ∧
      parseVersion Quote new = .ok (bump bumpType (a, b, c)) ∧
      (0 ≤ a → 0 ≤ b → 0 ≤ c → a < maxInt → b < maxInt → c < maxInt →
        0 ≤ (bump bumpType (a, b, c)).1 ∧ 0 ≤ (bump bumpType (a, b, c)).2.1 ∧
          0 ≤ (bump bumpType (a, b, c)).2.2) := by
  cases hp : parseVersion Quote version with
  | error msg =>
    unfold newVersion at h
    rw [hp] at h
    cases h
  | ok v =>
    obtain ⟨a, b, c⟩ := v
    rw [newVersion_of_parse Quote bumpType version _ hp] at h
    injection h with h
    obtain ⟨p0, p1, p2, hsplit, h0, h1, h2⟩ := parseVersion_ok_inv Quote version a b c hp
    have ha := Atoi_range p0 a h0
    have hb := Atoi_range p1 b h1
    have hc := Atoi_range p2 c h2
    obtain ⟨ra, rb, rc⟩ := bump_range bumpType a b c ha hb hc
    refine ⟨p0, p1, p2, a, b, c, hsplit, Atoi_ok_inv p0 a h0, Atoi_ok_inv p1 b h1,
      Atoi_ok_inv p2 c h2, h.symm, ?_, ?_⟩
    · rw [← h]
      exact parseVersion_formatVersion Quote _ _ _ ra rb rc
    · intro a0 b0 c0 a1 b1 c1
      have wa : wrapInt (a + 1) = a + 1 := wrapInt_of_range _ (by omega) (by omega)
      have wb : wrapInt (b + 1) = b + 1 := wrapInt_of_range _ (by omega) (by omega)
      have wc : wrapInt (c + 1) = c + 1 := wrapInt_of_range _ (by omega) (by omega)
      unfold bump
      split
      · simp only [wa]; omega
      · split
        · simp only [wb]; omega
        · split
          · simp only [wc]; omega
          · simp only; omega

/-- Witness for `accepted_versions`: `1.2.3` with the bump mode minor. -/
theorem accepted_versions_witness :
    newVersion acmeEnv.Quote "minor".toList "1.2.3".toList = .ok "1.3.0".toList ∧
    ∃ p0 p1 p2 a b c,
      Split "1.2.3".toList '.' = [p0, p1, p2] ∧ IsInteger p0 a ∧ IsInteger p1 b ∧
      IsInteger p2 c ∧
      "1.3.0".toList = formatVersion (bump "minor".toList (a, b, c)) ∧
      parseVersion acmeEnv.Quote "1.3.0".toList = .ok (bump "minor".toList (a, b, c)) ∧
      (0 ≤ a → 0 ≤ b → 0 ≤ c → a < maxInt → b < maxInt → c < maxInt →
        0 ≤ (bump "minor".toList (a, b, c)).1 ∧ 0 ≤ (bump "minor".toList (a, b, c)).2.1 ∧
          0 ≤ (bump "minor".toList (a, b, c)).2.2) :=
  ⟨by decide,
   accepted_versions acmeEnv.Quote "minor".toList "1.2.3".toList "1.3.0".toList (by decide)⟩

/-! ## The manifest patcher -/

theorem stripPrefix_append (p s : Str) : stripPrefix p (p ++ s) = some s := by
  induction p with
  | nil => cases s <;> rfl
  | cons c cs ih => rw [List.cons_append, stripPrefix, if_pos rfl, ih]

theorem stripPrefix_eq_some (p s r : Str) (h : stripPrefix p s = some r) : s = p ++ r := by
  induction p generalizing s with
  | nil =>
    have hs : stripPrefix [] s = some s := by cases s <;> rfl
    rw [hs] at h
    cases h
    rfl
  | cons c cs ih =>
    cases s with
    | nil => unfold stripPrefix at h; cases h
    | cons d ds =>
      unfold stripPrefix at h
      split at h
      · rename_i hcd
        rw [hcd, ih ds h]; rfl
      · cases h

/-- White space in front of a character that is none is what `\s*` takes. -/
theorem dropWhile_spaces_append (ws : Str) (c : Char) (s : Str)
    (hws : ∀ d ∈ ws, isSpace d = true) (hc : isSpace c = false) :
    (ws ++ c :: s).dropWhile isSpace = c :: s ∧ (ws ++ c :: s).takeWhile isSpace = ws := by
  induction ws with
  | nil => simp [List.dropWhile, List.takeWhile, hc]
  | cons d ds ih =>
    have hd : isSpace d = true := hws d (List.mem_cons_self _ _)
    obtain ⟨h1, h2⟩ := ih (fun x hx => hws x (List.mem_cons_of_mem _ hx))
    simp [List.dropWhile, List.takeWhile, hd, h1, h2]

/-- A match found at the head of the input is a match of the pattern. -/
theorem matchAt_sound (oldVersion s : Str) (m : Match) (h : matchAt oldVersion s = some m) :
    IsKeyPart m.group1 ∧ s = m.group1 ++ '"' :: (oldVersion ++ '"' :: m.rest) := by
  unfold matchAt at h
  split at h
  · cases h
  · rename_i s1 hs1
    split at h
    · rename_i s3 hs3
      split at h
      · rename_i rest hrest
        injection h with h
        subst h
        have e1 := stripPrefix_eq_some _ _ _ hs1
        have e3 := stripPrefix_eq_some _ _ _ hrest
        have t1 := List.takeWhile_append_dropWhile isSpace s1
        have t3 := List.takeWhile_append_dropWhile isSpace s3
        refine ⟨⟨s1.takeWhile isSpace, s3.takeWhile isSpace,
          fun c hc => List.mem_takeWhile_imp hc, fun c hc => List.mem_takeWhile_imp hc, rfl⟩, ?_⟩
        rw [e1]
        conv_lhs => rw [← t1, hs3, ← t3, e3]
        simp
      · cases h
    · cases h

/-- At a match of the pattern the search finds it. -/
theorem matchAt_complete (oldVersion g rest : Str) (hg : IsKeyPart g) :
    matchAt oldVersion (g ++ '"' :: (oldVersion ++ '"' :: rest)) = some ⟨g, rest⟩ := by
  obtain ⟨ws1, ws2, h1, h2, rfl⟩ := hg
  have e : versionKey ++ ws1 ++ ':' :: ws2 ++ '"' :: (oldVersion ++ '"' :: rest)
      = versionKey ++ (ws1 ++ ':' :: (ws2 ++ '"' :: (oldVersion ++ '"' :: rest))) := by simp
  obtain ⟨d1, t1⟩ := dropWhile_spaces_append ws1 ':'
    (ws2 ++ '"' :: (oldVersion ++ '"' :: rest)) h1 (by decide)
  obtain ⟨d2, t2⟩ := dropWhile_spaces_append ws2 '"' (oldVersion ++ '"' :: rest) h2 (by decide)
  have e3 : '"' :: (oldVersion ++ '"' :: rest) = ('"' :: oldVersion ++ ['"']) ++ rest := by simp
  unfold matchAt
  rw [e, stripPrefix_append]
  simp only [d1]
  rw [d2, t2, t1, e3, stripPrefix_append]

/-- The length of an input that starts with a match exceeds that of what follows it. -/
theorem matchAt_rest_length (oldVersion s : Str) (m : Match)
    (h : matchAt oldVersion s = some m) : m.rest.length < s.length := by
  obtain ⟨-, hs⟩ := matchAt_sound oldVersion s m h
  rw [hs]
  simp only [List.length_append, List.length_cons]
  omega

/-- The replacement loop with enough fuel patches its input. -/
theorem replaceAllAux_patched (oldVersion new : Str) (fuel : Nat) (s : Str)
    (hfuel : s.length ≤ fuel) :
    Patched oldVersion new s (replaceAllAux oldVersion new fuel s) := by
  induction fuel generalizing s with
  | zero =>
    have : s = [] := List.length_eq_zero.mp (Nat.le_zero.mp hfuel)
    subst this
    exact Patched.done
  | succ fuel ih =>
    cases s with
    | nil => exact Patched.done
    | cons c cs =>
      unfold replaceAllAux
      cases hm : matchAt oldVersion (c :: cs) with
      | none =>
        simp only
        refine Patched.keep c cs _ ?_ (ih cs (by simpa using hfuel))
        rintro ⟨g, rest, hg, hs⟩
        rw [hs, matchAt_complete oldVersion g rest hg] at hm
        cases hm
      | some m =>
        simp only
        obtain ⟨hg, hs⟩ := matchAt_sound oldVersion _ m hm
        have hlen := matchAt_rest_length oldVersion _ m hm
        have hrec := ih m.rest (by simp only [List.length_cons] at hlen hfuel; omega)
        have := @Patched.replace oldVersion new m.group1 m.rest _ hg hrec
        rw [hs]
        simpa [expandTemplate] using this

/-- Without a match anywhere the replacement loop copies its input. -/
theorem replaceAllAux_no_match (oldVersion new : Str) (fuel : Nat) (s : Str)
    (hno : ¬ Occurs oldVersion s) : replaceAllAux oldVersion new fuel s = s := by
  induction fuel generalizing s with
  | zero => rfl
  | succ fuel ih =>
    cases s with
    | nil => rfl
    | cons c cs =>
      unfold replaceAllAux
      cases hm : matchAt oldVersion (c :: cs) with
      | some m =>
        exfalso
        obtain ⟨hg, hs⟩ := matchAt_sound oldVersion _ m hm
        exact hno ⟨[], c :: cs, rfl, m.group1, m.rest, hg, hs⟩
      | none =>
        simp only
        rw [ih cs]
        rintro ⟨before, s, hbs, hs⟩
        exact hno ⟨c :: before, s, by rw [hbs]; rfl, hs⟩

/-- C2 (manifest patcher, frame): for every manifest text, old version string and new
version string (the three formatted components), the patched text is the manifest
text in which, at each match of the pattern from left to right, only the old version
between the quotes became the new version: the key, the white space around the
colon, both quotes and every character outside the matches are those of the input.
When the pattern does not occur, the patched text is the input. -/
theorem patch_frame (data oldVersion : Str) (v : Int × Int × Int) :
    Patched oldVersion (formatVersion v) data (updatedData oldVersion (formatVersion v) data) ∧
    (¬ Occurs oldVersion data → updatedData oldVersion (formatVersion v) data = data) :=
  ⟨replaceAllAux_patched oldVersion (formatVersion v) data.length data (Nat.le_refl _),
   replaceAllAux_no_match oldVersion (formatVersion v) data.length data⟩

/-- The pattern occurs exactly when the search finds a match at some position. -/
theorem occurs_iff (oldVersion data : Str) :
    Occurs oldVersion data ↔ ∃ s ∈ data.tails, (matchAt oldVersion s).isSome = true := by
  constructor
  · rintro ⟨before, s, hbs, g, rest, hg, hs⟩
    refine ⟨s, (List.mem_tails s data).mpr ⟨before, hbs.symm⟩, ?_⟩
    rw [hs, matchAt_complete oldVersion g rest hg]
    rfl
  · rintro ⟨s, hs, hm⟩
    obtain ⟨before, hbs⟩ := (List.mem_tails s data).mp hs
    cases hmatch : matchAt oldVersion s with
    | none => rw [hmatch] at hm; cases hm
    | some m =>
      obtain ⟨hg, he⟩ := matchAt_sound oldVersion s m hmatch
      exact ⟨before, s, hbs.symm, m.group1, m.rest, hg, he⟩

/-- Witness for `patch_frame`: on the example manifest the version `1.2.3` becomes
`1.3.0` and nothing else changes; the version `9.9.9` does not occur in it and the
patched text is the manifest. -/
theorem patch_frame_witness :
    updatedData "1.2.3".toList (formatVersion (1, 3, 0)) acmeManifest
      = "\x7b\"name\": \"@acme/tool\", \"version\": \"1.3.0\"\x7d".toList ∧
    ¬ Occurs "9.9.9".toList acmeManifest ∧
    updatedData "9.9.9".toList (formatVersion (1, 3, 0)) acmeManifest = acmeManifest :=
  ⟨by decide,
   (occurs_iff "9.9.9".toList acmeManifest).not.mpr (by decide),
   (patch_frame acmeManifest "9.9.9".toList (1, 3, 0)).2
     ((occurs_iff "9.9.9".toList acmeManifest).not.mpr (by decide))⟩

/-! ## The clipboard text -/

/-- The mask has no directive, so `Sprintf` reports both operands as extra. -/
theorem clipboardText_eq (name new : Str) :
    clipboardText name new
      = clipboardMask ++ "%!(EXTRA string=".toList ++ packageName name ++ ", string=".toList
          ++ new ++ ")".toList := by
  have hmask : ∀ args, Sprintf clipboardMask args = clipboardMask ++ Sprintf [] args :=
    fun _ => rfl
  unfold clipboardText
  rw [hmask]
  simp [Sprintf, fmtExtra, Arg.typeName, Arg.value]

/-- C6, the code at the witness input: for the name `@acme/tool` and the new version
`1.3.0` the package name is `acme/tool` (one leading `@` removed, as for `@@x`), but the
clipboard text is the mask followed by `%!(EXTRA string=acme/tool, string=1.3.0)`:
the mask has no placeholder, and the text holds more than the mask and the two
values. -/
theorem clipboard_text_has_extra :
    packageName "@acme/tool".toList = "acme/tool".toList ∧
    packageName "@@x".toList = "@x".toList ∧
    '%' ∉ clipboardMask ∧
    clipboardText "@acme/tool".toList "1.3.0".toList
      = "pnpm add https://github.com/rogerpence%!(EXTRA string=acme/tool, string=1.3.0)".toList ∧
    clipboardText "@acme/tool".toList "1.3.0".toList
      ≠ clipboardMask ++ "acme/tool".toList ++ "1.3.0".toList := by
  refine ⟨by decide, by decide, by decide, by decide, by decide⟩

/-! ## Nested version keys -/

/-- C10, the code at the failing input: in a manifest whose dependency entry has a
nested key `version` with the value of the top-level field, the patch rewrites
both values. -/
theorem nested_version_rewritten :
    updatedData "1.2.3".toList "1.2.4".toList nestedManifest
      = "\x7b\"version\": \"1.2.4\", \"dependencies\": \x7b\"left-pad\": \x7b\"version\": \"1.2.4\"\x7d\x7d\x7d".toList ∧
    updatedData "1.2.3".toList "1.2.4".toList nestedManifest
      ≠ "\x7b\"version\": \"1.2.4\", \"dependencies\": \x7b\"left-pad\": \x7b\"version\": \"1.2.3\"\x7d\x7d\x7d".toList := by
  refine ⟨by decide, by decide⟩

end BumpVersion
